import Mathlib

/-
Verification of the JVMTI assembly-capture agent
(src/java/com.oracle.jvmtiasmagent/src/jvmtiasmgent.c).

Shallow embedding: each C function of the capture core is translated into a
Lean function.  Side effects are made explicit:

* Writes to the output file, pthread lock operations, fflush, JVMTI
  Deallocate/free calls, JVMTI metadata queries and the report_error/abort
  path are recorded as an event trace (`Ev`, `Tr`).  A trace whose `ab` flag
  is set models a process that called abort(); events after an abort do not
  happen, which `Tr.seq` encodes by discarding the right operand.
* The JVMTI environment is an oracle (`Jvmti`) mapping each query to its
  outcome: success with data, a benign missing-information error
  (JVMTI_ERROR_NATIVE_METHOD / JVMTI_ERROR_ABSENT_INFORMATION), the shutdown
  condition JVMTI_ERROR_WRONG_PHASE, or any other (fatal) error.
* C strings are byte lists (`Bytes`); strlen is List.length (the model keeps
  no interior NUL bytes).  jint/jlong values are Int; where only the
  two's-complement bit pattern matters it is taken with Int.emod by 2^32 or
  2^64 (nonnegative in Lean 4).
* Heap allocations are identified structurally: within one compilation event
  every MethodData record belongs to a distinct jmethodID (the cache is
  deduplicated by handle), so the calloc'd record and each
  JVMTI-allocated field of the record for handle m get the allocation
  identity AllocId.record m, AllocId.name m, and so on.
* fwrite itself is modelled as always succeeding: I/O failures of the sink
  are environmental and outside every claim considered here.
-/

namespace JvmtiAsm

/-- Bytes written to the capture file, each a natural number below 256. -/
abbrev Bytes := List Nat

/-- Identity of one heap allocation made during a single compiled-method-load
event: the calloc'd MethodData record for jmethodID m, or one of its
JVMTI-allocated fields.  Distinct records have distinct handles, so these
identities are unique within an event. -/
inductive AllocId where
  | record (m : Nat)
  | name (m : Nat)
  | sig (m : Nat)
  | csig (m : Nat)
  | sfile (m : Nat)
  | tab (m : Nat)
deriving DecidableEq

/-- The jmethodID a given allocation belongs to. -/
def AllocId.mh : AllocId → Nat
  | .record m => m
  | .name m => m
  | .sig m => m
  | .csig m => m
  | .sfile m => m
  | .tab m => m

/-- Observable events of the agent: file writes, the file lock, fflush,
report_error (a diagnostic on stderr followed by abort), frees of heap
allocations, and JVMTI metadata queries issued to the host runtime. -/
inductive Ev where
  | lock
  | unlock
  | wr (bs : Bytes)
  | flush
  | err
  | fre (a : AllocId)
  | alc (a : AllocId)
  | query
deriving DecidableEq

/-- A trace of events together with an abort flag: `ab = true` means the
process terminated via report_error/abort inside this fragment. -/
structure Tr where
  evs : List Ev
  ab : Bool
deriving DecidableEq

/-- Sequential composition of two effects.  When the left fragment aborted
the process, the right fragment never runs. -/
def Tr.seq (a b : Tr) : Tr := if a.ab then a else ⟨a.evs ++ b.evs, b.ab⟩

/-- Concatenation of all bytes written in an event list, in order. -/
def outBytes : List Ev → Bytes
  | [] => []
  | .wr bs :: r => bs ++ outBytes r
  | .lock :: r => outBytes r
  | .unlock :: r => outBytes r
  | .flush :: r => outBytes r
  | .err :: r => outBytes r
  | .fre _ :: r => outBytes r
  | .alc _ :: r => outBytes r
  | .query :: r => outBytes r

/-- The write events of an event list (each element one fwrite payload). -/
def evWrites : List Ev → List Bytes
  | [] => []
  | .wr bs :: r => bs :: evWrites r
  | .lock :: r => evWrites r
  | .unlock :: r => evWrites r
  | .flush :: r => evWrites r
  | .err :: r => evWrites r
  | .fre _ :: r => evWrites r
  | .alc _ :: r => evWrites r
  | .query :: r => evWrites r

/-- Allocations freed in an event list, in order, with multiplicity. -/
def evFrees : List Ev → List AllocId
  | [] => []
  | .fre a :: r => a :: evFrees r
  | .wr _ :: r => evFrees r
  | .lock :: r => evFrees r
  | .unlock :: r => evFrees r
  | .flush :: r => evFrees r
  | .err :: r => evFrees r
  | .alc _ :: r => evFrees r
  | .query :: r => evFrees r

/-- Allocations made in an event list, in order, with multiplicity. -/
def evAllocs : List Ev → List AllocId
  | [] => []
  | .alc a :: r => a :: evAllocs r
  | .wr _ :: r => evAllocs r
  | .lock :: r => evAllocs r
  | .unlock :: r => evAllocs r
  | .flush :: r => evAllocs r
  | .err :: r => evAllocs r
  | .fre _ :: r => evAllocs r
  | .query :: r => evAllocs r

/-- Number of JVMTI metadata queries issued in an event list. -/
def evQueries : List Ev → Nat
  | [] => 0
  | .query :: r => evQueries r + 1
  | .wr _ :: r => evQueries r
  | .lock :: r => evQueries r
  | .unlock :: r => evQueries r
  | .flush :: r => evQueries r
  | .err :: r => evQueries r
  | .fre _ :: r => evQueries r
  | .alc _ :: r => evQueries r

/-! ## Binary encoder (write_jint, write_unsigned_jlong, write_string, ...) -/

/-- INT_MAX from limits.h, the largest signed 32-bit integer. -/
def INT_MAX : Nat := 2147483647

/-- Two's-complement 32-bit pattern of a jint value (4294967296 = 2^32). -/
def jpat (v : Int) : Nat := (v % 4294967296).toNat

/-- Two's-complement 64-bit pattern of a jlong value
(18446744073709551616 = 2^64). -/
def toBits64 (v : Int) : Nat := (v % 18446744073709551616).toNat

/-- Big-endian 4-byte representation of a 32-bit pattern, i.e. the bytes an
htonl'ed jint occupies on the wire (16777216 = 2^24, 65536 = 2^16). -/
def beBytes32 (w : Nat) : Bytes :=
  [w / 16777216 % 256, w / 65536 % 256, w / 256 % 256, w % 256]

/-- Big-endian 8-byte representation of a 64-bit pattern.  The divisors are
2^56, 2^48, 2^40, 2^32, 2^24, 2^16, 2^8. -/
def beBytes64 (w : Nat) : Bytes :=
  [w / 72057594037927936 % 256, w / 281474976710656 % 256,
   w / 1099511627776 % 256, w / 4294967296 % 256,
   w / 16777216 % 256, w / 65536 % 256, w / 256 % 256, w % 256]

/-- C write_or_fail: one fwrite of the given bytes (I/O failure of the sink
is not modelled, see the header comment). -/
def write_or_fail (bs : Bytes) : Tr := ⟨[.wr bs], false⟩

/-- C write_jint: htonl the value and write its 4 bytes, i.e. emit the
big-endian bytes of the argument's 32-bit pattern. -/
def write_jint (v : Int) : Tr := write_or_fail (beBytes32 (jpat v))

/-- Host byte order; the C code distinguishes the two with `1 != htonl(1)`. -/
inductive ByteOrder where
  | littleEndian
  | bigEndian
deriving DecidableEq

/-- C write_unsigned_jlong.  On a little-endian host there is no portable
htonll, so the value is split as `jint hi = (jint)(value >> 32);
jint lo = (jint)value;` and written as two 32-bit writes, high word first;
the 32-bit patterns of those jints are w / 2^32 and w % 2^32 where w is the
64-bit pattern of the value.  On a big-endian host native order equals
network order and the 8 bytes are written directly. -/
def write_unsigned_jlong (ho : ByteOrder) (v : Int) : Tr :=
  match ho with
  | .littleEndian =>
    Tr.seq (write_jint ((toBits64 v / 4294967296 : Nat) : Int))
           (write_jint ((toBits64 v % 4294967296 : Nat) : Int))
  | .bigEndian => write_or_fail (beBytes64 (toBits64 v))

/-- C write_string: report_error (fatal) when the pointer is NULL or when
strlen exceeds INT_MAX; otherwise write the 4-byte big-endian length and,
when positive, the raw bytes.  The C message argument only feeds the
diagnostic text and is not modelled. -/
def write_string (str : Option Bytes) : Tr :=
  match str with
  | none => ⟨[.err], true⟩
  | some s =>
    if s.length > INT_MAX then ⟨[.err], true⟩
    else Tr.seq (write_jint (s.length : Int))
                (if 0 < s.length then write_or_fail s else ⟨[], false⟩)

/-- C write_string_or_null: length -1 marks an actual NULL, distinguishing it
from the empty string whose length is 0. -/
def write_string_or_null (str : Option Bytes) : Tr :=
  match str with
  | none => write_jint (-1)
  | some s => write_string (some s)

/-- C write_timestamp: seconds then nanoseconds, each as 8 bytes. -/
def write_timestamp (ho : ByteOrder) (ts : Int × Int) : Tr :=
  Tr.seq (write_unsigned_jlong ho ts.1) (write_unsigned_jlong ho ts.2)

/-! ## Record tags -/

/-- C BUILD_TAG: four characters packed into one big-endian int. -/
def BUILD_TAG (a b c d : Nat) : Int :=
  ((a % 256) * 16777216 + (b % 256) * 65536 + (c % 256) * 256 + d % 256 : Nat)

def DynamicCodeTag : Int := BUILD_TAG 'D'.toNat 'Y'.toNat 'N'.toNat 'C'.toNat

def CompiledMethodLoadTag : Int := BUILD_TAG 'C'.toNat 'M'.toNat 'L'.toNat 'T'.toNat

def MethodsTag : Int := BUILD_TAG 'M'.toNat 'T'.toNat 'H'.toNat 'T'.toNat

def DebugInfoTag : Int := BUILD_TAG 'D'.toNat 'E'.toNat 'B'.toNat 'I'.toNat

def CompiledMethodUnloadTag : Int := BUILD_TAG 'C'.toNat 'M'.toNat 'U'.toNat 'T'.toNat

/-! ## Method metadata cache -/

/-- C struct MethodData.  `id` is the per-event method id (calloc leaves it
0); optional fields are NULL until the corresponding JVMTI query fills them.
`line_number_table` bundles the count and table pointer: `none` models a
NULL table with count 0. -/
structure MethodData where
  id : Int
  method : Nat
  source_file : Option Bytes
  method_name : Option Bytes
  method_signature : Option Bytes
  class_signature : Option Bytes
  line_number_table : Option (List (Int × Int))
deriving DecidableEq

/-- line_number_table_count as written to the file. -/
def MethodData.lntCount (md : MethodData) : Int :=
  match md.line_number_table with
  | none => 0
  | some t => (t.length : Nat)

/-- The line-number entries iterated by the writer. -/
def MethodData.lntList (md : MethodData) : List (Int × Int) :=
  match md.line_number_table with
  | none => []
  | some t => t

/-- The allocations owned by a MethodData record, listed in the order
free_method releases them: source_file, method_name, method_signature,
class_signature, line_number_table, then the record itself. -/
def mdAllocs (md : MethodData) : List AllocId :=
  (match md.source_file with | none => [] | some _ => [AllocId.sfile md.method]) ++
  (match md.method_name with | none => [] | some _ => [AllocId.name md.method]) ++
  (match md.method_signature with | none => [] | some _ => [AllocId.sig md.method]) ++
  (match md.class_signature with | none => [] | some _ => [AllocId.csig md.method]) ++
  (match md.line_number_table with | none => [] | some _ => [AllocId.tab md.method]) ++
  [AllocId.record md.method]

/-- C free_method: Deallocate each non-NULL field, then free the record. -/
def free_method (md : MethodData) : Tr := ⟨(mdAllocs md).map Ev.fre, false⟩

/-- Outcome of one JVMTI metadata query, as classified by
check_method_error: JVMTI_ERROR_NONE carries the data;
JVMTI_ERROR_NATIVE_METHOD and JVMTI_ERROR_ABSENT_INFORMATION are benign
(the output stays NULL); JVMTI_ERROR_WRONG_PHASE signals shutdown; anything
else is fatal. -/
inductive QR (α : Type) where
  | ok (v : α)
  | benign
  | wrongPhase
  | fatal

/-- The JVMTI environment as a query oracle.  GetMethodName yields name and
signature; GetMethodDeclaringClass yields a jclass handle consumed by
GetClassSignature and GetSourceFileName; GetLineNumberTable yields the
(start_location, line_number) table. -/
structure Jvmti where
  getMethodName : Nat → QR (Bytes × Bytes)
  getMethodDeclaringClass : Nat → QR Nat
  getClassSignature : Nat → QR Bytes
  getSourceFileName : Nat → QR Bytes
  getLineNumberTable : Nat → QR (List (Int × Int))

/-- Result of C lookup_method: the returned record (NULL when the event is
being abandoned or the process aborted), the updated cache list and count,
and the trace of effects. -/
structure LookupRes where
  res : Option MethodData
  methods : List MethodData
  methods_count : Int
  tr : Tr
deriving DecidableEq

/-- Prepend pure events to the trace of a lookup result. -/
def LookupRes.pre (e : List Ev) (r : LookupRes) : LookupRes :=
  ⟨r.res, r.methods, r.methods_count, Tr.seq ⟨e, false⟩ r.tr⟩

/-- The linear search at the head of lookup_method. -/
def findMethod (m : Nat) : List MethodData → Option MethodData
  | [] => none
  | md :: rest => if md.method = m then some md else findMethod m rest

/-- The id of the final list element, as tracked by the `last` pointer of
the C search loop (only consulted when the list is non-empty). -/
def lastId : List MethodData → Int
  | [] => 0
  | [md] => md.id
  | _ :: md :: rest => lastId (md :: rest)

/-- Tail of lookup_method after all five queries succeeded: set the list
head, or append with id = last->id + 1, and bump the count. -/
def lookup_finish (cur : MethodData) (methods : List MethodData)
    (methods_count : Int) : LookupRes :=
  match methods with
  | [] => ⟨some cur, [cur], methods_count + 1, ⟨[], false⟩⟩
  | _ :: _ =>
    let cur2 := { cur with id := lastId methods + 1 }
    ⟨some cur2, methods ++ [cur2], methods_count + 1, ⟨[], false⟩⟩

/-- lookup_method stage 5: GetLineNumberTable, then finish. -/
def lookup_q5 (J : Jvmti) (cur : MethodData) (methods : List MethodData)
    (methods_count : Int) : LookupRes :=
  match J.getLineNumberTable cur.method with
  | .ok t => LookupRes.pre [.query, .alc (.tab cur.method)]
      (lookup_finish { cur with line_number_table := some t } methods methods_count)
  | .benign => LookupRes.pre [.query] (lookup_finish cur methods methods_count)
  | .wrongPhase => ⟨none, methods, methods_count, Tr.seq ⟨[.query], false⟩ (free_method cur)⟩
  | .fatal => ⟨none, methods, methods_count, ⟨[.query, .err], true⟩⟩

/-- lookup_method stage 4: GetSourceFileName on the declaring class. -/
def lookup_q4 (J : Jvmti) (cls : Nat) (cur : MethodData) (methods : List MethodData)
    (methods_count : Int) : LookupRes :=
  match J.getSourceFileName cls with
  | .ok s => LookupRes.pre [.query, .alc (.sfile cur.method)]
      (lookup_q5 J { cur with source_file := some s } methods methods_count)
  | .benign => LookupRes.pre [.query] (lookup_q5 J cur methods methods_count)
  | .wrongPhase => ⟨none, methods, methods_count, Tr.seq ⟨[.query], false⟩ (free_method cur)⟩
  | .fatal => ⟨none, methods, methods_count, ⟨[.query, .err], true⟩⟩

/-- lookup_method stage 3: GetClassSignature on the declaring class. -/
def lookup_q3 (J : Jvmti) (cls : Nat) (cur : MethodData) (methods : List MethodData)
    (methods_count : Int) : LookupRes :=
  match J.getClassSignature cls with
  | .ok s => LookupRes.pre [.query, .alc (.csig cur.method)]
      (lookup_q4 J cls { cur with class_signature := some s } methods methods_count)
  | .benign => LookupRes.pre [.query] (lookup_q4 J cls cur methods methods_count)
  | .wrongPhase => ⟨none, methods, methods_count, Tr.seq ⟨[.query], false⟩ (free_method cur)⟩
  | .fatal => ⟨none, methods, methods_count, ⟨[.query, .err], true⟩⟩

/-- lookup_method stage 2: GetMethodDeclaringClass.  On a benign error the C
code would read an uninitialized jclass; the model passes handle 0 (that
query has no benign outcomes in practice). -/
def lookup_q2 (J : Jvmti) (cur : MethodData) (methods : List MethodData)
    (methods_count : Int) : LookupRes :=
  match J.getMethodDeclaringClass cur.method with
  | .ok cls => LookupRes.pre [.query] (lookup_q3 J cls cur methods methods_count)
  | .benign => LookupRes.pre [.query] (lookup_q3 J 0 cur methods methods_count)
  | .wrongPhase => ⟨none, methods, methods_count, Tr.seq ⟨[.query], false⟩ (free_method cur)⟩
  | .fatal => ⟨none, methods, methods_count, ⟨[.query, .err], true⟩⟩

/-- lookup_method stage 1: GetMethodName fills name and signature. -/
def lookup_q1 (J : Jvmti) (cur : MethodData) (methods : List MethodData)
    (methods_count : Int) : LookupRes :=
  match J.getMethodName cur.method with
  | .ok ns => LookupRes.pre [.query, .alc (.name cur.method), .alc (.sig cur.method)]
      (lookup_q2 J { cur with method_name := some ns.1, method_signature := some ns.2 }
        methods methods_count)
  | .benign => LookupRes.pre [.query] (lookup_q2 J cur methods methods_count)
  | .wrongPhase => ⟨none, methods, methods_count, Tr.seq ⟨[.query], false⟩ (free_method cur)⟩
  | .fatal => ⟨none, methods, methods_count, ⟨[.query, .err], true⟩⟩

/-- C lookup_method: linear search of the event-local cache; on a miss,
calloc a zeroed record and run the five metadata queries; on
JVMTI_ERROR_WRONG_PHASE free the partial record and return NULL; on any
other non-benign error report_error aborts the process. -/
def lookup_method (J : Jvmti) (method : Nat) (methods : List MethodData)
    (methods_count : Int) : LookupRes :=
  match findMethod method methods with
  | some md => ⟨some md, methods, methods_count, ⟨[], false⟩⟩
  | none =>
    LookupRes.pre [.alc (.record method)]
      (lookup_q1 J ⟨0, method, none, none, none, none, none⟩ methods methods_count)

/-! ## Compile-info records (jvmticmlr.h) -/

/-- One PCStackInfo entry: a pc and its inlined stack frames, each a
(jmethodID, bytecode index) pair; numstackframes is the list length. -/
structure PCStackInfo where
  pc : Int
  frames : List (Nat × Int)
deriving DecidableEq

/-- jvmtiCompiledMethodLoadInlineRecord: numpcs entries of PCStackInfo. -/
structure InlineRecord where
  pcinfo : List PCStackInfo
deriving DecidableEq

/-- One record of the compile_info chain: either an inline-info record or a
record of any other kind. -/
inductive CompileRecord where
  | inlineInfo (r : InlineRecord)
  | other
deriving DecidableEq

/-- The scan loop of compiledMethodLoad: walk the chain and stop at the
first record whose kind is JVMTI_CMLR_INLINE_INFO. -/
def findFirstInline : List CompileRecord → Option InlineRecord
  | [] => none
  | .inlineInfo r :: _ => some r
  | .other :: rest => findFirstInline rest

/-! ## The locked record-write phase (write_method_load_event) -/

/-- State threaded through the locked write phase: the cache (the DEBI loop
calls lookup_method), the count, the output-file reference and the trace. -/
structure WState where
  methods : List MethodData
  methods_count : Int
  file : Option Nat
  tr : Tr
deriving DecidableEq

/-- Per-method body of the MTHT section: three required strings, the
nullable source file, the line count and the line table. -/
def write_method_entry (ho : ByteOrder) (md : MethodData) : Tr :=
  Tr.seq (Tr.seq (Tr.seq (Tr.seq (write_string md.class_signature)
    (write_string md.method_name)) (write_string md.method_signature))
    (write_string_or_null md.source_file))
    (Tr.seq (write_jint md.lntCount) (write_line_table ho md.lntList))
  where
    /-- The inner loop over line_number_table entries. -/
    write_line_table (ho : ByteOrder) : List (Int × Int) → Tr
      | [] => ⟨[], false⟩
      | (loc, ln) :: rest =>
        Tr.seq (Tr.seq (write_unsigned_jlong ho loc) (write_jint ln))
               (write_line_table ho rest)

/-- The MTHT loop over all cached methods. -/
def write_methods (ho : ByteOrder) : List MethodData → Tr
  | [] => ⟨[], false⟩
  | md :: rest => Tr.seq (write_method_entry ho md) (write_methods ho rest)

/-- The inner DEBI loop over one PCStackInfo's frames: look each jmethodID
up (expected to hit the cache) and write its id and bytecode index.  When
lookup_method returns NULL here the C code dereferences a NULL pointer;
the model records that as a crash (err, abort). -/
def writeFrames (J : Jvmti) (frames : List (Nat × Int)) (s : WState) : WState :=
  match frames with
  | [] => s
  | (m, bci) :: rest =>
    let r := lookup_method J m s.methods s.methods_count
    match r.res with
    | none => ⟨r.methods, r.methods_count, s.file, Tr.seq (Tr.seq s.tr r.tr) ⟨[.err], true⟩⟩
    | some md =>
      writeFrames J rest ⟨r.methods, r.methods_count, s.file,
        Tr.seq (Tr.seq (Tr.seq s.tr r.tr) (write_jint md.id)) (write_jint bci)⟩

/-- The outer DEBI loop over the inline record's PCStackInfo entries: pc,
frame count, then the frames. -/
def writePcs (ho : ByteOrder) (J : Jvmti) (pcs : List PCStackInfo) (s : WState) : WState :=
  match pcs with
  | [] => s
  | info :: rest =>
    writePcs ho J rest (writeFrames J info.frames
      { s with tr := Tr.seq (Tr.seq s.tr (write_unsigned_jlong ho info.pc))
                            (write_jint ((info.frames.length : Nat) : Int)) })

/-- C write_method_load_event: under the file lock and a NULL re-check,
write the CMLT framing (tag, timestamp, code address, code size, raw code
bytes), the MTHT method table, and the DEBI section (numpcs and per-pc
frames when an inline record exists, otherwise a zero count), then fflush.
`code` stands for the code_size bytes at code_addr, so code_size is its
length.  The lock is released unconditionally; a NULL file means nothing is
written. -/
def write_method_load_event (ho : ByteOrder) (J : Jvmti) (ts : Int × Int)
    (code_addr : Int) (code : Bytes) (methods_count : Int)
    (methods : List MethodData) (inline_records : Option InlineRecord)
    (file : Option Nat) : WState :=
  match file with
  | none => ⟨methods, methods_count, none, ⟨[.lock, .unlock], false⟩⟩
  | some h =>
    let hdr : Tr :=
      Tr.seq (Tr.seq (Tr.seq (Tr.seq (write_jint CompiledMethodLoadTag)
        (write_timestamp ho ts)) (write_unsigned_jlong ho code_addr))
        (write_jint ((code.length : Nat) : Int))) (write_or_fail code)
    let mtht : Tr :=
      Tr.seq (Tr.seq (write_jint MethodsTag) (write_jint methods_count))
             (write_methods ho methods)
    let base : Tr := Tr.seq (Tr.seq (Tr.seq ⟨[.lock], false⟩ hdr) mtht)
                            (write_jint DebugInfoTag)
    match inline_records with
    | some ir =>
      let s1 := writePcs ho J ir.pcinfo
        ⟨methods, methods_count, some h,
         Tr.seq base (write_jint ((ir.pcinfo.length : Nat) : Int))⟩
      { s1 with tr := Tr.seq (Tr.seq s1.tr ⟨[.flush], false⟩) ⟨[.unlock], false⟩ }
    | none =>
      ⟨methods, methods_count, some h,
       Tr.seq (Tr.seq (Tr.seq base (write_jint 0)) ⟨[.flush], false⟩) ⟨[.unlock], false⟩⟩

/-! ## Event handlers -/

/-- State of the pre-lock resolution loop of compiledMethodLoad; `aband`
becomes true when a lookup returned NULL (goto cleanup). -/
structure RState where
  methods : List MethodData
  methods_count : Int
  tr : Tr
  aband : Bool
deriving DecidableEq

/-- Pre-lock resolution of every method of one PCStackInfo's frames. -/
def resolveFrames (J : Jvmti) (frames : List (Nat × Int)) (s : RState) : RState :=
  match frames with
  | [] => s
  | (m, _) :: rest =>
    let r := lookup_method J m s.methods s.methods_count
    match r.res with
    | none => ⟨r.methods, r.methods_count, Tr.seq s.tr r.tr, true⟩
    | some _ => resolveFrames J rest ⟨r.methods, r.methods_count, Tr.seq s.tr r.tr, false⟩

/-- Pre-lock resolution over all PCStackInfo entries of the inline record. -/
def resolvePcs (J : Jvmti) (pcs : List PCStackInfo) (s : RState) : RState :=
  match pcs with
  | [] => s
  | info :: rest =>
    let s1 := resolveFrames J info.frames s
    if s1.aband then s1 else resolvePcs J rest s1

/-- The cleanup loop at the end of compiledMethodLoad: free every cached
record. -/
def cleanupMethods : List MethodData → Tr
  | [] => ⟨[], false⟩
  | md :: rest => Tr.seq (free_method md) (cleanupMethods rest)

/-- Result of one compiledMethodLoad callback.  `tr` is the full trace;
`lockedTr` the trace of the locked write phase alone (empty when that phase
was never reached); `resolved` the cache as the pre-lock phase left it;
`methods`/`methods_count` the cache state after the write phase; `aband`
records that the event was abandoned via the shutdown condition. -/
structure CMLRes where
  tr : Tr
  lockedTr : Tr
  resolved : List MethodData
  methods : List MethodData
  methods_count : Int
  aband : Bool
  file : Option Nat
deriving DecidableEq

/-- C compiledMethodLoad: timestamp first (a parameter here), resolve the
primary method, then every method of every frame of the first
JVMTI_CMLR_INLINE_INFO record of the compile_info chain; on any NULL lookup
goto cleanup with nothing written; otherwise write the record under the
lock and free the cache. -/
def compiledMethodLoad (ho : ByteOrder) (J : Jvmti) (method : Nat)
    (code_addr : Int) (code : Bytes) (compile_info : List CompileRecord)
    (ts : Int × Int) (file : Option Nat) : CMLRes :=
  let r := lookup_method J method [] 0
  match r.res with
  | none =>
    ⟨Tr.seq r.tr (cleanupMethods r.methods), ⟨[], false⟩, r.methods,
     r.methods, r.methods_count, true, file⟩
  | some _ =>
    let s0 : RState := ⟨r.methods, r.methods_count, r.tr, false⟩
    let s := match findFirstInline compile_info with
             | some ir => resolvePcs J ir.pcinfo s0
             | none => s0
    if s.aband then
      ⟨Tr.seq s.tr (cleanupMethods s.methods), ⟨[], false⟩, s.methods,
       s.methods, s.methods_count, true, file⟩
    else
      let w := write_method_load_event ho J ts code_addr code s.methods_count
        s.methods (findFirstInline compile_info) file
      ⟨Tr.seq (Tr.seq s.tr w.tr) (cleanupMethods w.methods), w.tr, s.methods,
       w.methods, w.methods_count, false, w.file⟩

/-- C compiledMethodUnload: under the lock and NULL re-check, write the
CMUT tag, the timestamp and the code address, then fflush.  Returns the
trace and the (unchanged) file reference. -/
def compiledMethodUnload (ho : ByteOrder) (code_addr : Int) (ts : Int × Int)
    (file : Option Nat) : Tr × Option Nat :=
  match file with
  | none => (⟨[.lock, .unlock], false⟩, none)
  | some h =>
    (Tr.seq (Tr.seq (Tr.seq (Tr.seq (Tr.seq ⟨[.lock], false⟩
       (write_jint CompiledMethodUnloadTag)) (write_timestamp ho ts))
       (write_unsigned_jlong ho code_addr)) ⟨[.flush], false⟩) ⟨[.unlock], false⟩,
     some h)

/-- C dynamicCodeGenerated: under the lock and NULL re-check, write the
DYNC tag, the timestamp, the (required) name, the code address, the code
size and the raw code bytes, then fflush.  `code` stands for the code_size
bytes at code_addr. -/
def dynamicCodeGenerated (ho : ByteOrder) (name : Option Bytes)
    (code_addr : Int) (code : Bytes) (ts : Int × Int)
    (file : Option Nat) : Tr × Option Nat :=
  match file with
  | none => (⟨[.lock, .unlock], false⟩, none)
  | some h =>
    (Tr.seq (Tr.seq (Tr.seq (Tr.seq (Tr.seq (Tr.seq (Tr.seq (Tr.seq
       ⟨[.lock], false⟩ (write_jint DynamicCodeTag)) (write_timestamp ho ts))
       (write_string name)) (write_unsigned_jlong ho code_addr))
       (write_jint ((code.length : Nat) : Int))) (write_or_fail code))
       ⟨[.flush], false⟩) ⟨[.unlock], false⟩,
     some h)

/-! ## Output-file name resolution in Agent_OnLoad -/

/-- The two-character pid placeholder searched with strstr. -/
def pidPlaceholder : List Char := ['%', 'p']

/-- Whether pat occurs at the very start of s. -/
def prefixAt (pat s : List Char) : Bool :=
  match pat with
  | [] => true
  | p :: ps =>
    match s with
    | [] => false
    | c :: cs => p == c && prefixAt ps cs

/-- Index of the first position where pat occurs in s (C strstr). -/
def strstrIdx (pat s : List Char) : Option Nat :=
  match s with
  | [] => if prefixAt pat [] then some 0 else none
  | _ :: rest =>
    if prefixAt pat s then some 0
    else (strstrIdx pat rest).map (· + 1)

/-- The file-name computation of Agent_OnLoad: when the options string
contains the placeholder, the name is the prefix before its first
occurrence, then the decimal pid, then everything after the two placeholder
characters verbatim; otherwise the options string itself.  (The pid's
decimal form has at most 10 digits, so the 32-byte snprintf buffer never
truncates.) -/
def agent_filename (options : List Char) (pid : Nat) : List Char :=
  match strstrIdx pidPlaceholder options with
  | none => options
  | some i => options.take i ++ (Nat.repr pid).data ++ options.drop (i + 2)

/-! ## Specification-side descriptions used by the theorems -/

/-- Whether an occurrence of pat starts at position i of s. -/
def occursAt (pat s : List Char) (i : Nat) : Bool := prefixAt pat (s.drop i)

/-- Events of one length-prefixed string write. -/
def strEvs (s : Bytes) : List Ev :=
  .wr (beBytes32 s.length) :: (if 0 < s.length then [.wr s] else [])

/-- Events of one 8-byte write of a jlong value. -/
def jlongEvs (ho : ByteOrder) (v : Int) : List Ev := (write_unsigned_jlong ho v).evs

/-- Events of the line-number table of one method. -/
def lineEvs (ho : ByteOrder) : List (Int × Int) → List Ev
  | [] => []
  | (loc, ln) :: rest =>
    jlongEvs ho loc ++ [.wr (beBytes32 (jpat ln))] ++ lineEvs ho rest

/-- Events of one MTHT method entry (meaningful for well-formed records,
whose required strings are present). -/
def methodEntryEvs (ho : ByteOrder) (md : MethodData) : List Ev :=
  strEvs ((md.class_signature).getD []) ++ strEvs ((md.method_name).getD []) ++
  strEvs ((md.method_signature).getD []) ++
  (match md.source_file with
   | none => [.wr (beBytes32 (jpat (-1)))]
   | some s => strEvs s) ++
  [.wr (beBytes32 (jpat md.lntCount))] ++ lineEvs ho md.lntList

/-- Events of the whole MTHT entry list. -/
def methodsEvs (ho : ByteOrder) : List MethodData → List Ev
  | [] => []
  | md :: rest => methodEntryEvs ho md ++ methodsEvs ho rest

/-- The id the DEBI section writes for a frame's jmethodID: the id of its
cache record (0 is a placeholder for the unreachable miss case). -/
def idOf (m : Nat) (methods : List MethodData) : Int :=
  match findMethod m methods with
  | some md => md.id
  | none => 0

/-- Events of the DEBI frames of one PCStackInfo. -/
def framesEvs (methods : List MethodData) : List (Nat × Int) → List Ev
  | [] => []
  | (m, bci) :: rest =>
    [.wr (beBytes32 (jpat (idOf m methods))), .wr (beBytes32 (jpat bci))] ++
    framesEvs methods rest

/-- Events of the DEBI pc list. -/
def pcsEvs (ho : ByteOrder) (methods : List MethodData) : List PCStackInfo → List Ev
  | [] => []
  | info :: rest =>
    jlongEvs ho info.pc ++ [.wr (beBytes32 (jpat ((info.frames.length : Nat) : Int)))] ++
    framesEvs methods info.frames ++ pcsEvs ho methods rest

/-- The full locked-phase event list of one CMLT record written with the
given cache contents. -/
def cmltEvs (ho : ByteOrder) (ts : Int × Int) (code_addr : Int) (code : Bytes)
    (methods_count : Int) (methods : List MethodData)
    (inline_records : Option InlineRecord) : List Ev :=
  [.lock, .wr (beBytes32 (jpat CompiledMethodLoadTag))] ++
  jlongEvs ho ts.1 ++ jlongEvs ho ts.2 ++ jlongEvs ho code_addr ++
  [.wr (beBytes32 (jpat ((code.length : Nat) : Int))), .wr code,
   .wr (beBytes32 (jpat MethodsTag)), .wr (beBytes32 (jpat methods_count))] ++
  methodsEvs ho methods ++ [.wr (beBytes32 (jpat DebugInfoTag))] ++
  (match inline_records with
   | some ir => [.wr (beBytes32 (jpat ((ir.pcinfo.length : Nat) : Int)))] ++
                pcsEvs ho methods ir.pcinfo
   | none => [.wr (beBytes32 (jpat 0))]) ++
  [.flush, .unlock]

/-- A string-valued field that, when present, fits the 32-bit length
limit of write_string. -/
def wfStr (o : Option Bytes) : Prop := ∀ s, o = some s → s.length ≤ INT_MAX

/-- A string-valued field that is present and fits the length limit. -/
def reqStr (o : Option Bytes) : Prop := ∃ s, o = some s ∧ s.length ≤ INT_MAX

/-- A cache record whose serialization by write_method_entry completes:
the three required strings are present and every present string fits the
length limit. -/
def wfMethod (md : MethodData) : Prop :=
  reqStr md.method_name ∧ reqStr md.method_signature ∧
  reqStr md.class_signature ∧ wfStr md.source_file

/-- An oracle under which metadata resolution never takes the fatal path
and resolved records are always serializable: the name, declaring-class
and class-signature queries answer or report shutdown (they have no benign
outcomes in practice), the source-file query may also report absence, the
line-table query is never fatal, and every returned string fits the length
limit. -/
structure GoodJ (J : Jvmti) : Prop where
  nameOk : ∀ m, match J.getMethodName m with
    | .ok ns => ns.1.length ≤ INT_MAX ∧ ns.2.length ≤ INT_MAX
    | .wrongPhase => True
    | _ => False
  clsOk : ∀ m, match J.getMethodDeclaringClass m with
    | .ok _ => True
    | .wrongPhase => True
    | _ => False
  csigOk : ∀ c, match J.getClassSignature c with
    | .ok s => s.length ≤ INT_MAX
    | .wrongPhase => True
    | _ => False
  sfileOk : ∀ c, match J.getSourceFileName c with
    | .ok s => s.length ≤ INT_MAX
    | .fatal => False
    | _ => True
  ltabOk : ∀ m, match J.getLineNumberTable m with
    | .fatal => False
    | _ => True

/-- Classification of one lookup_method stage outcome, relative to the
partially built record `cur`: either the record is completed and appended
(with the id rule of lookup_finish, balanced allocations, nothing freed or
written), or the event is abandoned (the partial record's allocations freed
exactly, nothing written), or the process aborted on a fatal error (which a
GoodJ oracle rules out). -/
def LookupCases (J : Jvmti) (cur : MethodData) (methods : List MethodData)
    (methods_count : Int) (wfpre : Prop) (r : LookupRes) : Prop :=
  (∃ md, r.res = some md ∧ md.method = cur.method ∧
     md.id = (match methods with | [] => cur.id | _ :: _ => lastId methods + 1) ∧
     r.methods = methods ++ [md] ∧ r.methods_count = methods_count + 1 ∧
     r.tr.ab = false ∧ Ev.err ∉ r.tr.evs ∧ evWrites r.tr.evs = [] ∧
     evFrees r.tr.evs = [] ∧
     List.Perm (evAllocs r.tr.evs ++ mdAllocs cur) (mdAllocs md) ∧
     (∀ a ∈ evAllocs r.tr.evs, AllocId.mh a = cur.method) ∧
     (GoodJ J → wfpre → wfMethod md)) ∨
  (r.res = none ∧ r.methods = methods ∧ r.methods_count = methods_count ∧
     r.tr.ab = false ∧ Ev.err ∉ r.tr.evs ∧ evWrites r.tr.evs = [] ∧
     List.Perm (evFrees r.tr.evs) (mdAllocs cur ++ evAllocs r.tr.evs) ∧
     (∀ a ∈ evAllocs r.tr.evs, AllocId.mh a = cur.method) ∧
     (∃ c : MethodData, evFrees r.tr.evs = mdAllocs c)) ∨
  (r.tr.ab = true ∧ r.res = none ∧ evWrites r.tr.evs = [] ∧
     evFrees r.tr.evs = [] ∧ (GoodJ J → False))

/-- Classification of a whole lookup_method call on a cache miss. -/
def LookupTop (J : Jvmti) (m : Nat) (methods : List MethodData)
    (methods_count : Int) (r : LookupRes) : Prop :=
  (∃ md, r.res = some md ∧ md.method = m ∧
     md.id = (match methods with | [] => 0 | _ :: _ => lastId methods + 1) ∧
     r.methods = methods ++ [md] ∧ r.methods_count = methods_count + 1 ∧
     r.tr.ab = false ∧ Ev.err ∉ r.tr.evs ∧ evWrites r.tr.evs = [] ∧
     evFrees r.tr.evs = [] ∧
     List.Perm (evAllocs r.tr.evs) (mdAllocs md) ∧
     (∀ a ∈ evAllocs r.tr.evs, AllocId.mh a = m) ∧
     (GoodJ J → wfMethod md)) ∨
  (r.res = none ∧ r.methods = methods ∧ r.methods_count = methods_count ∧
     r.tr.ab = false ∧ Ev.err ∉ r.tr.evs ∧ evWrites r.tr.evs = [] ∧
     List.Perm (evFrees r.tr.evs) (evAllocs r.tr.evs) ∧
     (∀ a ∈ evAllocs r.tr.evs, AllocId.mh a = m) ∧
     (evAllocs r.tr.evs).Nodup) ∨
  (r.tr.ab = true ∧ r.res = none ∧ evWrites r.tr.evs = [] ∧
     evFrees r.tr.evs = [] ∧ (GoodJ J → False))

/-- Invariant of the pre-lock resolution phase of compiledMethodLoad: no
writes, frees or aborts so far, the allocations made match exactly the
allocations owned by the cached records, method handles are distinct,
the count equals the list length, ids are 0,1,2,... in list order, and
(under a GoodJ oracle) every cached record is serializable. -/
def ResolveInv (J : Jvmti) (s : RState) : Prop :=
  s.aband = false ∧ s.tr.ab = false ∧ Ev.err ∉ s.tr.evs ∧
  evWrites s.tr.evs = [] ∧ evFrees s.tr.evs = [] ∧
  List.Perm (evAllocs s.tr.evs) (s.methods.flatMap mdAllocs) ∧
  (s.methods.map (fun md => md.method)).Nodup ∧
  ((s.methods.length : Int) = s.methods_count) ∧
  s.methods.map (fun md => md.id) =
    (List.range s.methods.length).map (fun i : Nat => (i : Int)) ∧
  (s.methods ≠ [] → lastId s.methods = (s.methods.length : Int) - 1) ∧
  (GoodJ J → ∀ md ∈ s.methods, wfMethod md)

/-- State of an abandoned resolution phase just before cleanup: nothing
written, no abort, and the frees done so far plus the live cache records
balance the allocations exactly. -/
def AbandonOut (s : RState) : Prop :=
  s.tr.ab = false ∧ Ev.err ∉ s.tr.evs ∧ evWrites s.tr.evs = [] ∧
  List.Perm (evFrees s.tr.evs ++ s.methods.flatMap mdAllocs) (evAllocs s.tr.evs) ∧
  (evAllocs s.tr.evs).Nodup

/-- A concrete JVMTI oracle for which every metadata query answers, used to
exercise the theorems on closed inputs. -/
def J0 : Jvmti :=
  ⟨fun _ => .ok ([97], [98]), fun _ => .ok 7, fun _ => .ok [76],
   fun _ => .ok [70], fun _ => .ok [(0, 1)]⟩

/-- A concrete oracle whose name query reports the shutdown condition for
jmethodID 2 and answers otherwise. -/
def J1 : Jvmti :=
  ⟨fun m => if m = 2 then .wrongPhase else .ok ([97], [98]), fun _ => .ok 7,
   fun _ => .ok [76], fun _ => .ok [70], fun _ => .ok [(0, 1)]⟩

/-- A concrete compile_info chain: one record of another kind, then an
inline record whose single pc has two frames (jmethodIDs 1 and 2). -/
def ci0 : List CompileRecord :=
  [CompileRecord.other, CompileRecord.inlineInfo ⟨[⟨9, [(1, 5), (2, 3)]⟩]⟩]

/-- The resolution state right after the primary lookup of
compiledMethodLoad succeeded. -/
def rstate0 (J : Jvmti) (method : Nat) : RState :=
  ⟨(lookup_method J method [] 0).methods,
   (lookup_method J method [] 0).methods_count,
   (lookup_method J method [] 0).tr, false⟩

/-! ## Basic facts about traces -/

theorem Tr.seq_pure (l1 : List Ev) (b : Tr) :
    Tr.seq ⟨l1, false⟩ b = ⟨l1 ++ b.evs, b.ab⟩ := by
  simp [Tr.seq]

theorem Tr.seq_assoc (a b c : Tr) :
    Tr.seq (Tr.seq a b) c = Tr.seq a (Tr.seq b c) := by
  rcases a with ⟨ae, aab⟩; rcases b with ⟨be, bab⟩; rcases c with ⟨ce, cab⟩
  cases aab <;> cases bab <;> simp [Tr.seq]

theorem Tr.seq_nil_right (a : Tr) : Tr.seq a ⟨[], false⟩ = a := by
  rcases a with ⟨ae, aab⟩; cases aab <;> simp [Tr.seq]

theorem Tr.seq_ab (a b : Tr) : (Tr.seq a b).ab = (a.ab || b.ab) := by
  rcases a with ⟨ae, aab⟩; cases aab <;> simp [Tr.seq]

theorem outBytes_append (l1 l2 : List Ev) :
    outBytes (l1 ++ l2) = outBytes l1 ++ outBytes l2 := by
  induction l1 with
  | nil => rfl
  | cons e r ih => cases e <;> simp [outBytes, ih]

theorem evWrites_append (l1 l2 : List Ev) :
    evWrites (l1 ++ l2) = evWrites l1 ++ evWrites l2 := by
  induction l1 with
  | nil => rfl
  | cons e r ih => cases e <;> simp [evWrites, ih]

theorem evFrees_append (l1 l2 : List Ev) :
    evFrees (l1 ++ l2) = evFrees l1 ++ evFrees l2 := by
  induction l1 with
  | nil => rfl
  | cons e r ih => cases e <;> simp [evFrees, ih]

theorem evAllocs_append (l1 l2 : List Ev) :
    evAllocs (l1 ++ l2) = evAllocs l1 ++ evAllocs l2 := by
  induction l1 with
  | nil => rfl
  | cons e r ih => cases e <;> simp [evAllocs, ih]

theorem evQueries_append (l1 l2 : List Ev) :
    evQueries (l1 ++ l2) = evQueries l1 + evQueries l2 := by
  induction l1 with
  | nil => simp [evQueries]
  | cons e r ih => cases e <;> (simp [evQueries, ih]; try omega)

theorem evFrees_map_fre (l : List AllocId) : evFrees (l.map Ev.fre) = l := by
  induction l with
  | nil => rfl
  | cons a r ih => simp [evFrees, ih]

theorem evAllocs_map_fre (l : List AllocId) : evAllocs (l.map Ev.fre) = [] := by
  induction l with
  | nil => rfl
  | cons a r ih => simp [evAllocs, ih]

theorem evWrites_map_fre (l : List AllocId) : evWrites (l.map Ev.fre) = [] := by
  induction l with
  | nil => rfl
  | cons a r ih => simp [evWrites, ih]

theorem evQueries_map_fre (l : List AllocId) : evQueries (l.map Ev.fre) = 0 := by
  induction l with
  | nil => rfl
  | cons a r ih => simp [evQueries, ih]

theorem err_not_mem_map_fre (l : List AllocId) : Ev.err ∉ l.map Ev.fre := by
  simp

/-! ## Arithmetic facts about the encoders -/

theorem jpat_natCast (n : Nat) : jpat (n : Int) = n % 4294967296 := by
  unfold jpat; omega

theorem toBits64_lt (v : Int) : toBits64 v < 18446744073709551616 := by
  unfold toBits64; omega

theorem beBytes32_mod (w : Nat) : beBytes32 (w % 4294967296) = beBytes32 w := by
  have e1 : w % 4294967296 % 256 = w % 256 := by omega
  have e2 : w % 4294967296 / 256 % 256 = w / 256 % 256 := by omega
  have e3 : w % 4294967296 / 65536 % 256 = w / 65536 % 256 := by omega
  have e4 : w % 4294967296 / 16777216 % 256 = w / 16777216 % 256 := by omega
  simp [beBytes32, e1, e2, e3, e4]

theorem beBytes64_split (w : Nat) :
    beBytes32 (w / 4294967296) ++ beBytes32 (w % 4294967296) = beBytes64 w := by
  have e1 : w / 4294967296 / 16777216 % 256 = w / 72057594037927936 % 256 := by omega
  have e2 : w / 4294967296 / 65536 % 256 = w / 281474976710656 % 256 := by omega
  have e3 : w / 4294967296 / 256 % 256 = w / 1099511627776 % 256 := by omega
  have e5 : w % 4294967296 % 256 = w % 256 := by omega
  have e6 : w % 4294967296 / 256 % 256 = w / 256 % 256 := by omega
  have e7 : w % 4294967296 / 65536 % 256 = w / 65536 % 256 := by omega
  have e8 : w % 4294967296 / 16777216 % 256 = w / 16777216 % 256 := by omega
  simp [beBytes32, beBytes64, e1, e2, e3, e5, e6, e7, e8]

/-! ## Facts about the writer primitives -/

theorem wulong_eq (ho : ByteOrder) (v : Int) :
    write_unsigned_jlong ho v = ⟨jlongEvs ho v, false⟩ := by
  cases ho <;> simp [jlongEvs, write_unsigned_jlong, Tr.seq, write_jint, write_or_fail]

theorem wulong_le_evs (v : Int) :
    (write_unsigned_jlong .littleEndian v).evs =
      [.wr (beBytes32 (toBits64 v / 4294967296)),
       .wr (beBytes32 (toBits64 v % 4294967296))] := by
  have h1 : jpat ((toBits64 v / 4294967296 : Nat) : Int) = toBits64 v / 4294967296 := by
    rw [jpat_natCast]; have := toBits64_lt v; omega
  have h2 : jpat ((toBits64 v % 4294967296 : Nat) : Int) = toBits64 v % 4294967296 := by
    rw [jpat_natCast]; omega
  unfold write_unsigned_jlong write_jint write_or_fail
  rw [Tr.seq_pure]
  simp only [h1, h2]
  rfl

theorem wulong_out (ho : ByteOrder) (v : Int) :
    outBytes (jlongEvs ho v) = beBytes64 (toBits64 v) := by
  cases ho with
  | littleEndian =>
    show outBytes (write_unsigned_jlong .littleEndian v).evs = _
    rw [wulong_le_evs]
    simp [outBytes]
    exact beBytes64_split (toBits64 v)
  | bigEndian => simp [jlongEvs, write_unsigned_jlong, write_or_fail, outBytes]

theorem write_string_some (s : Bytes) :
    write_string (some s) =
      if s.length > INT_MAX then ⟨[.err], true⟩ else ⟨strEvs s, false⟩ := by
  by_cases hl : s.length > INT_MAX
  · simp [write_string, hl]
  · have hj : jpat (s.length : Int) = s.length := by
      rw [jpat_natCast]; unfold INT_MAX at hl; omega
    by_cases hp : 0 < s.length <;>
      simp [write_string, strEvs, hl, hp, Tr.seq, write_jint, write_or_fail, hj]

theorem write_string_wf (s : Bytes) (h : s.length ≤ INT_MAX) :
    write_string (some s) = ⟨strEvs s, false⟩ := by
  rw [write_string_some, if_neg (by omega)]

theorem outBytes_strEvs (s : Bytes) : outBytes (strEvs s) = beBytes32 s.length ++ s := by
  cases s <;> simp [strEvs, outBytes]

theorem strEvs_writes (s : Bytes) :
    evWrites (strEvs s) = beBytes32 s.length :: (if 0 < s.length then [s] else []) := by
  cases s <;> simp [strEvs, evWrites]

/-! ## Claim C6 -/

/-- C6: for every 64-bit value, write_unsigned_jlong emits exactly the
8-byte big-endian representation of the value's two's-complement pattern,
identically on both host byte orders; on a little-endian host it emits it
as two big-endian 32-bit writes, the high word then the low word. -/
theorem c6_writeFixed64_bigEndian (ho : ByteOrder) (v : Int) :
    outBytes (write_unsigned_jlong ho v).evs = beBytes64 (toBits64 v) ∧
    (write_unsigned_jlong ho v).ab = false ∧
    (write_unsigned_jlong .littleEndian v).evs =
      [.wr (beBytes32 (toBits64 v / 4294967296)),
       .wr (beBytes32 (toBits64 v % 4294967296))] ∧
    outBytes (write_unsigned_jlong .littleEndian v).evs =
      outBytes (write_unsigned_jlong .bigEndian v).evs ∧
    (beBytes64 (toBits64 v)).length = 8 := by
  refine ⟨?_, ?_, wulong_le_evs v, ?_, rfl⟩
  · show outBytes (jlongEvs ho v) = _
    exact wulong_out ho v
  · rw [wulong_eq]
  · show outBytes (jlongEvs .littleEndian v) = outBytes (jlongEvs .bigEndian v)
    rw [wulong_out, wulong_out]

/-! ## Claim C7 -/

/-- C7: write_string fails fatally (diagnostic plus abort, the `err`
event with the abort flag) when its argument is NULL or when the length
exceeds INT_MAX; otherwise it emits the 4-byte big-endian length followed
by exactly the string's bytes, with zero data bytes for the empty string. -/
theorem c7_write_string_spec (s : Bytes) :
    write_string none = ⟨[.err], true⟩ ∧
    write_string (some s) =
      (if s.length > INT_MAX then ⟨[.err], true⟩ else ⟨strEvs s, false⟩) ∧
    outBytes (strEvs s) = beBytes32 s.length ++ s ∧
    (beBytes32 s.length).length = 4 ∧
    write_string (some []) = ⟨[.wr (beBytes32 0)], false⟩ :=
  ⟨rfl, write_string_some s, outBytes_strEvs s, rfl, by decide⟩

/-! ## Claim C8 -/

/-- C8: in a CMLT record's method table, a NULL source file serializes as
the 4-byte length -1 (bytes FF FF FF FF) with no data, a method with an
empty line-number table serializes the count 0 (bytes 00 00 00 00), and a
NULL string is encoded differently from an empty string, so the two are
always distinguishable. -/
theorem c8_null_vs_empty (ho : ByteOrder) (md : MethodData) (cs mn ms : Bytes)
    (hcs : md.class_signature = some cs) (hcsl : cs.length ≤ INT_MAX)
    (hmn : md.method_name = some mn) (hmnl : mn.length ≤ INT_MAX)
    (hms : md.method_signature = some ms) (hmsl : ms.length ≤ INT_MAX)
    (hsf : md.source_file = none)
    (hlt : md.line_number_table = none ∨ md.line_number_table = some []) :
    write_method_entry ho md =
      ⟨strEvs cs ++ strEvs mn ++ strEvs ms ++
       [.wr [255, 255, 255, 255], .wr [0, 0, 0, 0]], false⟩ ∧
    outBytes (write_string_or_null none).evs = [255, 255, 255, 255] ∧
    outBytes (write_string (some [])).evs = [0, 0, 0, 0] ∧
    outBytes (write_string_or_null none).evs ≠ outBytes (write_string (some [])).evs := by
  refine ⟨?_, by decide, by decide, by decide⟩
  have hcount : md.lntCount = 0 := by
    rcases hlt with h | h <;> simp [MethodData.lntCount, h]
  have hlist : md.lntList = [] := by
    rcases hlt with h | h <;> simp [MethodData.lntList, h]
  have hneg : beBytes32 (jpat (-1)) = [255, 255, 255, 255] := by decide
  have hzero : beBytes32 (jpat 0) = [0, 0, 0, 0] := by decide
  rw [write_method_entry, hcs, hms, hmn, hsf, hcount, hlist,
      write_string_wf cs hcsl, write_string_wf mn hmnl, write_string_wf ms hmsl]
  simp [write_string_or_null, write_jint, write_or_fail, Tr.seq,
        write_method_entry.write_line_table, hneg, hzero]

/-- Concrete witness for C8: a record whose source file is NULL and whose
line table is empty. -/
theorem c8_witness :
    write_method_entry .littleEndian
        ⟨0, 5, none, some [110], some [115], some [99], none⟩ =
      ⟨strEvs [99] ++ strEvs [110] ++ strEvs [115] ++
       [.wr [255, 255, 255, 255], .wr [0, 0, 0, 0]], false⟩ ∧
    outBytes (write_string_or_null none).evs ≠ outBytes (write_string (some [])).evs := by
  have h := c8_null_vs_empty .littleEndian
    ⟨0, 5, none, some [110], some [115], some [99], none⟩ [99] [110] [115]
    rfl (by decide) rfl (by decide) rfl (by decide) rfl (Or.inl rfl)
  exact ⟨h.1, h.2.2.2⟩

/-! ## Claim C5 -/

theorem dync_evs (ho : ByteOrder) (ts : Int × Int) (addr : Int) (h : Nat)
    (name code : Bytes) (hn : name.length ≤ INT_MAX) :
    (dynamicCodeGenerated ho (some name) addr code ts (some h)).1 =
      ⟨[Ev.lock, Ev.wr (beBytes32 (jpat DynamicCodeTag))] ++
       jlongEvs ho ts.1 ++ jlongEvs ho ts.2 ++ strEvs name ++ jlongEvs ho addr ++
       [Ev.wr (beBytes32 (jpat ((code.length : Nat) : Int))), Ev.wr code,
        Ev.flush, Ev.unlock], false⟩ := by
  rw [dynamicCodeGenerated]
  rw [write_timestamp, wulong_eq ho ts.1, wulong_eq ho ts.2, wulong_eq ho addr,
      write_string_wf name hn]
  simp only [write_jint, write_or_fail, Tr.seq_pure]
  simp [List.append_assoc]

/-- C5: a dynamic-code-generated event with a non-null 4-character name and
16 code bytes appends exactly 56 bytes: the 4-byte DYNC tag, the 8-byte
seconds and 8-byte nanoseconds timestamps, the 4-byte name length and the 4
name bytes, the 8-byte code address, the 4-byte code size, and the 16 raw
code bytes, all multi-byte integers big-endian. -/
theorem c5_dync_record_bytes (ho : ByteOrder) (ts : Int × Int) (addr : Int)
    (h : Nat) (name code : Bytes)
    (hn : name.length = 4) (hc : code.length = 16) :
    outBytes (dynamicCodeGenerated ho (some name) addr code ts (some h)).1.evs =
      beBytes32 (jpat DynamicCodeTag) ++ beBytes64 (toBits64 ts.1) ++
      beBytes64 (toBits64 ts.2) ++ beBytes32 4 ++ name ++
      beBytes64 (toBits64 addr) ++ beBytes32 16 ++ code ∧
    (outBytes (dynamicCodeGenerated ho (some name) addr code ts (some h)).1.evs).length = 56 ∧
    (dynamicCodeGenerated ho (some name) addr code ts (some h)).1.ab = false ∧
    beBytes32 (jpat DynamicCodeTag) = [68, 89, 78, 67] := by
  have hcode : jpat ((code.length : Nat) : Int) = 16 := by
    rw [hc, jpat_natCast]
  have hout : outBytes (dynamicCodeGenerated ho (some name) addr code ts (some h)).1.evs =
      beBytes32 (jpat DynamicCodeTag) ++ beBytes64 (toBits64 ts.1) ++
      beBytes64 (toBits64 ts.2) ++ beBytes32 4 ++ name ++
      beBytes64 (toBits64 addr) ++ beBytes32 16 ++ code := by
    rw [dync_evs ho ts addr h name code (by rw [hn]; decide)]
    simp only [outBytes_append, outBytes, outBytes_strEvs, wulong_out, hcode, hn]
    simp [outBytes_append, wulong_out, outBytes_strEvs, outBytes, hn, List.append_assoc]
  refine ⟨hout, ?_, ?_, by decide⟩
  · rw [hout]
    simp only [List.length_append, beBytes32, beBytes64, List.length_cons,
      List.length_nil, hn, hc]
  · rw [dync_evs ho ts addr h name code (by rw [hn]; decide)]

/-- Concrete witness for C5: name "stub", address 0x1000, 16 zero code
bytes. -/
theorem c5_witness :
    outBytes (dynamicCodeGenerated .littleEndian (some [115, 116, 117, 98]) 4096
        (List.replicate 16 0) (0, 0) (some 0)).1.evs =
      beBytes32 (jpat DynamicCodeTag) ++ beBytes64 (toBits64 0) ++
      beBytes64 (toBits64 0) ++ beBytes32 4 ++ [115, 116, 117, 98] ++
      beBytes64 (toBits64 4096) ++ beBytes32 16 ++ List.replicate 16 0 ∧
    (outBytes (dynamicCodeGenerated .littleEndian (some [115, 116, 117, 98]) 4096
        (List.replicate 16 0) (0, 0) (some 0)).1.evs).length = 56 :=
  ⟨(c5_dync_record_bytes .littleEndian (0, 0) 4096 0 [115, 116, 117, 98]
      (List.replicate 16 0) rfl rfl).1,
   (c5_dync_record_bytes .littleEndian (0, 0) 4096 0 [115, 116, 117, 98]
      (List.replicate 16 0) rfl rfl).2.1⟩

/-! ## Claim C9 -/

theorem strstrIdx_cons (pat : List Char) (c : Char) (rest : List Char) :
    strstrIdx pat (c :: rest) =
      if prefixAt pat (c :: rest) then some 0
      else (strstrIdx pat rest).map (· + 1) := rfl

theorem prefixAt_self_append (l t : List Char) : prefixAt l (l ++ t) = true := by
  induction l with
  | nil => rfl
  | cons c r ih => simp [prefixAt, ih]

theorem strstrIdx_none (s : List Char)
    (h : ∀ i ≤ s.length, occursAt pidPlaceholder s i = false) :
    strstrIdx pidPlaceholder s = none := by
  induction s with
  | nil => rfl
  | cons c rest ih =>
    have h0 : prefixAt pidPlaceholder (c :: rest) = false := by
      have h0 := h 0 (by omega)
      simp only [occursAt] at h0
      exact h0
    have hrest : strstrIdx pidPlaceholder rest = none := by
      refine ih fun i hi => ?_
      have hi1 := h (i + 1) (by simp [List.length_cons]; omega)
      simp only [occursAt] at hi1 ⊢
      exact hi1
    rw [strstrIdx_cons, h0, hrest]
    rfl

theorem strstrIdx_first (a b : List Char)
    (h : ∀ i < a.length, occursAt pidPlaceholder (a ++ pidPlaceholder ++ b) i = false) :
    strstrIdx pidPlaceholder (a ++ pidPlaceholder ++ b) = some a.length := by
  induction a with
  | nil =>
    have h0 : prefixAt pidPlaceholder ([] ++ pidPlaceholder ++ b) = true :=
      prefixAt_self_append pidPlaceholder b
    rw [show ([] : List Char) ++ pidPlaceholder ++ b = '%' :: ('p' :: b) from rfl] at h0 ⊢
    rw [strstrIdx_cons, h0]
    rfl
  | cons c rest ih =>
    have h0 : prefixAt pidPlaceholder (c :: (rest ++ pidPlaceholder ++ b)) = false := by
      have h0 := h 0 (by simp)
      simp only [occursAt] at h0
      exact h0
    have hr : strstrIdx pidPlaceholder (rest ++ pidPlaceholder ++ b) = some rest.length := by
      refine ih fun i hi => ?_
      have hi1 := h (i + 1) (by simp [List.length_cons]; omega)
      simp only [occursAt] at hi1 ⊢
      exact hi1
    rw [show (c :: rest) ++ pidPlaceholder ++ b = c :: (rest ++ pidPlaceholder ++ b) from rfl]
    rw [strstrIdx_cons, h0, hr]
    simp [List.length_cons]

theorem drop_append_plus (a t : List Char) (n : Nat) :
    (a ++ t).drop (a.length + n) = t.drop n := by
  induction a with
  | nil => simp
  | cons c rest ih =>
    have he : (c :: rest).length + n = (rest.length + n) + 1 := by
      simp [List.length_cons]; omega
    rw [he]
    simp [List.drop_succ_cons, ih]

/-- C9: when the destination path contains the two-character placeholder,
Agent_OnLoad opens the path with exactly the first occurrence replaced by
the decimal pid, keeping every later occurrence verbatim; a path without
the placeholder is used verbatim. -/
theorem c9_pid_placeholder (pid : Nat) (s a b : List Char)
    (hnone : ∀ i ≤ s.length, occursAt pidPlaceholder s i = false)
    (hfirst : ∀ i < a.length,
      occursAt pidPlaceholder (a ++ pidPlaceholder ++ b) i = false) :
    agent_filename s pid = s ∧
    agent_filename (a ++ pidPlaceholder ++ b) pid =
      a ++ (Nat.repr pid).data ++ b := by
  constructor
  · unfold agent_filename
    rw [strstrIdx_none s hnone]
  · unfold agent_filename
    rw [strstrIdx_first a b hfirst]
    show (a ++ pidPlaceholder ++ b).take a.length ++ (Nat.repr pid).data ++
        (a ++ pidPlaceholder ++ b).drop (a.length + 2) = a ++ (Nat.repr pid).data ++ b
    have htake : (a ++ pidPlaceholder ++ b).take a.length = a := by
      rw [List.append_assoc]
      exact List.take_left a (pidPlaceholder ++ b)
    have hdrop : (a ++ pidPlaceholder ++ b).drop (a.length + 2) = b := by
      rw [List.append_assoc, drop_append_plus a (pidPlaceholder ++ b) 2]
      rfl
    rw [htake, hdrop]

/-- Concrete witness for C9: path "t%p%p" with pid 4242 becomes
"t4242%p" (only the first occurrence is replaced), and a path without the
placeholder is untouched. -/
theorem c9_witness :
    agent_filename (['t'] ++ pidPlaceholder ++ ['%', 'p']) 4242 =
      ['t'] ++ (Nat.repr 4242).data ++ ['%', 'p'] ∧
    agent_filename ['x', 'p'] 4242 = ['x', 'p'] :=
  ⟨(c9_pid_placeholder 4242 ['x', 'p'] ['t'] ['%', 'p'] (by decide) (by decide)).2,
   (c9_pid_placeholder 4242 ['x', 'p'] ['t'] ['%', 'p'] (by decide) (by decide)).1⟩

/-! ## Facts about MethodData allocations and the cache search -/

theorem mdAllocs_mh (md : MethodData) : ∀ a ∈ mdAllocs md, AllocId.mh a = md.method := by
  obtain ⟨i, m, sf, mn, ms, cs, lt⟩ := md
  rcases sf with _ | sf <;> rcases mn with _ | mn <;> rcases ms with _ | ms <;>
    rcases cs with _ | cs <;> rcases lt with _ | lt <;>
    simp [mdAllocs, AllocId.mh]

theorem mdAllocs_nodup (md : MethodData) : (mdAllocs md).Nodup := by
  obtain ⟨i, m, sf, mn, ms, cs, lt⟩ := md
  rcases sf with _ | sf <;> rcases mn with _ | mn <;> rcases ms with _ | ms <;>
    rcases cs with _ | cs <;> rcases lt with _ | lt <;>
    simp [mdAllocs]

theorem findMethod_none (m : Nat) (mds : List MethodData)
    (h : findMethod m mds = none) : ∀ md ∈ mds, md.method ≠ m := by
  induction mds with
  | nil => simp
  | cons x rest ih =>
    rw [findMethod] at h
    by_cases hx : x.method = m
    · simp [hx] at h
    · simp [hx] at h
      intro md hmd
      rcases List.mem_cons.mp hmd with he | hr
      · rw [he]; exact hx
      · exact ih h md hr

theorem findMethod_some (m : Nat) (mds : List MethodData) (md : MethodData)
    (h : findMethod m mds = some md) : md ∈ mds ∧ md.method = m := by
  induction mds with
  | nil => simp [findMethod] at h
  | cons x rest ih =>
    rw [findMethod] at h
    by_cases hx : x.method = m
    · simp [hx] at h
      exact ⟨by simp [h], by rw [← h]; exact hx⟩
    · simp [hx] at h
      obtain ⟨hmem, hm⟩ := ih h
      exact ⟨List.mem_cons_of_mem x hmem, hm⟩

theorem findMethod_append_mono (m : Nat) (mds : List MethodData)
    (md x : MethodData) (h : findMethod m mds = some md) :
    findMethod m (mds ++ [x]) = some md := by
  induction mds with
  | nil => simp [findMethod] at h
  | cons y rest ih =>
    rw [findMethod] at h
    by_cases hy : y.method = m
    · simp [hy] at h
      subst h
      simp [findMethod, hy]
    · simp [hy] at h
      simp [findMethod, hy, ih h]

theorem findMethod_append_self (m : Nat) (mds : List MethodData)
    (x : MethodData) (h : findMethod m mds = none) (hx : x.method = m) :
    findMethod m (mds ++ [x]) = some x := by
  induction mds with
  | nil => simp [findMethod, hx]
  | cons y rest ih =>
    rw [findMethod] at h
    by_cases hy : y.method = m
    · simp [hy] at h
    · simp [hy] at h
      simp [findMethod, hy, ih h]

theorem findMethod_isSome_mono (m : Nat) (mds : List MethodData)
    (x : MethodData) (h : (findMethod m mds).isSome = true) :
    (findMethod m (mds ++ [x])).isSome = true := by
  rcases hf : findMethod m mds with _ | md
  · rw [hf] at h; simp at h
  · rw [findMethod_append_mono m mds md x hf]; rfl

theorem lastId_append (mds : List MethodData) (x : MethodData) :
    lastId (mds ++ [x]) = x.id := by
  induction mds with
  | nil => rfl
  | cons c rest ih =>
    cases rest with
    | nil => rfl
    | cons d t => exact ih

theorem bind_mdAllocs_mh (mds : List MethodData) :
    ∀ a ∈ mds.flatMap mdAllocs, AllocId.mh a ∈ mds.map (fun md => md.method) := by
  intro a ha
  rw [List.mem_flatMap] at ha
  obtain ⟨md, hmd, hha⟩ := ha
  rw [List.mem_map]
  exact ⟨md, hmd, (mdAllocs_mh md a hha).symm⟩

theorem bind_mdAllocs_nodup (mds : List MethodData)
    (h : (mds.map (fun md => md.method)).Nodup) : (mds.flatMap mdAllocs).Nodup := by
  induction mds with
  | nil => simp
  | cons md rest ih =>
    rw [List.map_cons, List.nodup_cons] at h
    rw [List.flatMap_cons, List.nodup_append]
    refine ⟨mdAllocs_nodup md, ih h.2, ?_⟩
    intro a ha har
    have h1 : AllocId.mh a = md.method := mdAllocs_mh md a ha
    have h2 : AllocId.mh a ∈ rest.map (fun md => md.method) :=
      bind_mdAllocs_mh rest a har
    rw [h1] at h2
    exact h.1 h2

theorem cleanupMethods_eq (mds : List MethodData) :
    cleanupMethods mds = ⟨(mds.flatMap mdAllocs).map Ev.fre, false⟩ := by
  induction mds with
  | nil => rfl
  | cons md rest ih =>
    rw [cleanupMethods, ih, free_method, Tr.seq_pure]
    simp [List.flatMap_cons]

theorem lookup_found (J : Jvmti) (m : Nat) (mds : List MethodData)
    (cnt : Int) (md : MethodData) (h : findMethod m mds = some md) :
    lookup_method J m mds cnt = ⟨some md, mds, cnt, ⟨[], false⟩⟩ := by
  rw [lookup_method, h]

/-! ## Classification of lookup_method -/

theorem mdAllocs_set_tab (cur : MethodData) (t : List (Int × Int))
    (h : cur.line_number_table = none) :
    List.Perm (AllocId.tab cur.method :: mdAllocs cur)
      (mdAllocs { cur with line_number_table := some t }) := by
  obtain ⟨i, m, sf, mn, ms, cs, lt⟩ := cur
  simp only at h
  subst h
  simp only [mdAllocs]
  rw [List.perm_iff_count]
  intro x
  simp [List.count_append, List.count_cons]
  try omega

theorem mdAllocs_set_sfile (cur : MethodData) (s : Bytes)
    (h : cur.source_file = none) :
    List.Perm (AllocId.sfile cur.method :: mdAllocs cur)
      (mdAllocs { cur with source_file := some s }) := by
  obtain ⟨i, m, sf, mn, ms, cs, lt⟩ := cur
  simp only at h
  subst h
  simp only [mdAllocs]
  rw [List.perm_iff_count]
  intro x
  simp [List.count_append, List.count_cons]
  try omega

theorem mdAllocs_set_csig (cur : MethodData) (s : Bytes)
    (h : cur.class_signature = none) :
    List.Perm (AllocId.csig cur.method :: mdAllocs cur)
      (mdAllocs { cur with class_signature := some s }) := by
  obtain ⟨i, m, sf, mn, ms, cs, lt⟩ := cur
  simp only at h
  subst h
  simp only [mdAllocs]
  rw [List.perm_iff_count]
  intro x
  simp [List.count_append, List.count_cons]
  try omega

theorem mdAllocs_set_name (cur : MethodData) (n sg : Bytes)
    (h1 : cur.method_name = none) (h2 : cur.method_signature = none) :
    List.Perm (AllocId.name cur.method :: AllocId.sig cur.method :: mdAllocs cur)
      (mdAllocs { cur with method_name := some n, method_signature := some sg }) := by
  obtain ⟨i, m, sf, mn, ms, cs, lt⟩ := cur
  simp only at h1 h2
  subst h1
  subst h2
  simp only [mdAllocs]
  rw [List.perm_iff_count]
  intro x
  simp [List.count_append, List.count_cons]
  try omega

/-- Lifting a stage classification through a prefix of pure query/alloc
events, possibly updating the record under construction. -/
theorem lookupCases_pre (J : Jvmti) (cur cur2 : MethodData)
    (methods : List MethodData) (cnt : Int) (wfpre wfpre2 : Prop)
    (evts : List Ev) (r : LookupRes)
    (hc : LookupCases J cur2 methods cnt wfpre2 r)
    (hm : cur2.method = cur.method)
    (hid : cur2.id = cur.id)
    (hperm : List.Perm (evAllocs evts ++ mdAllocs cur) (mdAllocs cur2))
    (hmh : ∀ a ∈ evAllocs evts, AllocId.mh a = cur.method)
    (hw : evWrites evts = [])
    (hf : evFrees evts = [])
    (he : Ev.err ∉ evts)
    (hwf : GoodJ J → wfpre → wfpre2) :
    LookupCases J cur methods cnt wfpre (LookupRes.pre evts r) := by
  rcases hc with ⟨md, h1, h2, h3, h4, h5, h6, h7, h8, h9, h10, h11, h12⟩ |
    ⟨h1, h2, h3, h4, h5, h6, h7, h8, h9⟩ | ⟨h1, h2, h3, h4, h5⟩
  · left
    simp only [LookupRes.pre, Tr.seq_pure, evAllocs_append, evWrites_append,
      evFrees_append, List.mem_append]
    refine ⟨md, h1, by rw [h2, hm], by rw [hid] at h3; exact h3, h4, h5, h6,
      ?_, ?_, ?_, ?_, ?_, ?_⟩
    · rintro (hx | hx)
      · exact he hx
      · exact h7 hx
    · simp [hw, h8]
    · simp [hf, h9]
    · rw [List.perm_iff_count]
      intro x
      have p1 := List.perm_iff_count.mp hperm x
      have p2 := List.perm_iff_count.mp h10 x
      simp only [List.count_append] at p1 p2 ⊢
      omega
    · intro a ha
      rcases ha with hx | hx
      · exact hmh a hx
      · rw [← hm]; exact h11 a hx
    · intro hg hp
      exact h12 hg (hwf hg hp)
  · right; left
    simp only [LookupRes.pre, Tr.seq_pure, evAllocs_append, evWrites_append,
      evFrees_append, List.mem_append]
    refine ⟨h1, h2, h3, h4, ?_, ?_, ?_, ?_, ?_⟩
    · rintro (hx | hx)
      · exact he hx
      · exact h5 hx
    · simp [hw, h6]
    · rw [List.perm_iff_count]
      intro x
      have p1 := List.perm_iff_count.mp hperm x
      have p2 := List.perm_iff_count.mp h7 x
      simp only [List.count_append, hf, List.count_nil] at p1 p2 ⊢
      omega
    · intro a ha
      rcases ha with hx | hx
      · exact hmh a hx
      · rw [← hm]; exact h8 a hx
    · obtain ⟨c, hcf⟩ := h9
      exact ⟨c, by rw [hf]; simpa using hcf⟩
  · right; right
    simp only [LookupRes.pre, Tr.seq, h1, evWrites_append, evFrees_append]
    refine ⟨rfl, h2, ?_, ?_, h5⟩
    · simp [hw, h3, evWrites_append]
    · simp [hf, h4, evFrees_append]

/-- The tail of a successful lookup: appending the finished record. -/
theorem mdAllocs_set_id (cur : MethodData) (x : Int) :
    mdAllocs { cur with id := x } = mdAllocs cur := rfl

theorem lookup_finish_cases (J : Jvmti) (cur : MethodData)
    (methods : List MethodData) (cnt : Int) :
    LookupCases J cur methods cnt (wfMethod cur) (lookup_finish cur methods cnt) := by
  left
  cases methods with
  | nil =>
    exact ⟨cur, rfl, rfl, rfl, rfl, rfl, rfl, by simp [lookup_finish], rfl, rfl,
      List.Perm.refl _, fun a ha => absurd ha (List.not_mem_nil a), fun _ h => h⟩
  | cons y rest =>
    exact ⟨{ cur with id := lastId (y :: rest) + 1 }, rfl, rfl, rfl, rfl, rfl,
      rfl, by simp [lookup_finish], rfl, rfl, List.Perm.refl _,
      fun a ha => absurd ha (List.not_mem_nil a), fun _ h => h⟩

/-- A query that reports JVMTI_ERROR_WRONG_PHASE: the partial record is
freed and NULL is returned. -/
theorem lookup_phase_case (J : Jvmti) (cur : MethodData) (methods : List MethodData)
    (cnt : Int) (wfpre : Prop) :
    LookupCases J cur methods cnt wfpre
      ⟨none, methods, cnt, Tr.seq ⟨[.query], false⟩ (free_method cur)⟩ := by
  right; left
  refine ⟨rfl, rfl, rfl, ?_, ?_, ?_, ?_, ?_, ⟨cur, ?_⟩⟩
  · show (Tr.seq ⟨[Ev.query], false⟩ (free_method cur)).ab = false
    rw [free_method, Tr.seq_pure]
  · show Ev.err ∉ (Tr.seq ⟨[Ev.query], false⟩ (free_method cur)).evs
    rw [free_method, Tr.seq_pure]
    intro hx
    rcases List.mem_cons.mp hx with h | h
    · cases h
    · exact err_not_mem_map_fre (mdAllocs cur) h
  · show evWrites (Ev.query :: (mdAllocs cur).map Ev.fre) = []
    simp [evWrites, evWrites_map_fre]
  · show List.Perm (evFrees (Ev.query :: (mdAllocs cur).map Ev.fre))
      (mdAllocs cur ++ evAllocs (Ev.query :: (mdAllocs cur).map Ev.fre))
    simp [evFrees, evAllocs, evFrees_map_fre, evAllocs_map_fre]
  · intro a ha
    have hA : evAllocs ((Tr.seq ⟨[Ev.query], false⟩ (free_method cur)).evs) = [] := by
      rw [free_method, Tr.seq_pure]
      simp [evAllocs, evAllocs_map_fre]
    rw [hA] at ha
    cases ha
  · show evFrees (Ev.query :: (mdAllocs cur).map Ev.fre) = mdAllocs cur
    simp [evFrees, evFrees_map_fre]

/-- A query that fails with a fatal JVMTI error: report_error aborts. -/
theorem lookup_fatal_case (J : Jvmti) (cur : MethodData) (methods : List MethodData)
    (cnt : Int) (wfpre : Prop) (hgf : GoodJ J → False) :
    LookupCases J cur methods cnt wfpre
      ⟨none, methods, cnt, ⟨[.query, .err], true⟩⟩ := by
  right; right
  exact ⟨rfl, rfl, rfl, rfl, hgf⟩

theorem lookup_q5_cases (J : Jvmti) (cur : MethodData) (methods : List MethodData)
    (cnt : Int) (htab : cur.line_number_table = none) :
    LookupCases J cur methods cnt (wfMethod cur) (lookup_q5 J cur methods cnt) := by
  rw [lookup_q5]
  cases hq : J.getLineNumberTable cur.method with
  | ok t =>
    refine lookupCases_pre J cur { cur with line_number_table := some t } methods cnt
      _ _ _ _ (lookup_finish_cases J _ methods cnt) rfl rfl ?_ ?_ rfl rfl (by simp)
      (fun _ h => h)
    · exact mdAllocs_set_tab cur t htab
    · intro a ha
      simp only [evAllocs] at ha
      rcases List.mem_cons.mp ha with h | h
      · rw [h]; rfl
      · cases h
  | benign =>
    exact lookupCases_pre J cur cur methods cnt _ _ _ _
      (lookup_finish_cases J cur methods cnt) rfl rfl (List.Perm.refl _)
      (fun a ha => absurd ha (List.not_mem_nil a)) rfl rfl (by simp) (fun _ h => h)
  | wrongPhase => exact lookup_phase_case J cur methods cnt _
  | fatal =>
    refine lookup_fatal_case J cur methods cnt _ ?_
    intro hg
    have h := hg.ltabOk cur.method
    rw [hq] at h
    exact h

theorem lookup_q4_cases (J : Jvmti) (cls : Nat) (cur : MethodData)
    (methods : List MethodData) (cnt : Int)
    (hsf : cur.source_file = none) (htab : cur.line_number_table = none) :
    LookupCases J cur methods cnt
      (reqStr cur.method_name ∧ reqStr cur.method_signature ∧ reqStr cur.class_signature)
      (lookup_q4 J cls cur methods cnt) := by
  rw [lookup_q4]
  cases hq : J.getSourceFileName cls with
  | ok s =>
    refine lookupCases_pre J cur { cur with source_file := some s } methods cnt
      _ _ _ _ (lookup_q5_cases J _ methods cnt htab) rfl rfl ?_ ?_ rfl rfl (by simp) ?_
    · exact mdAllocs_set_sfile cur s hsf
    · intro a ha
      simp only [evAllocs] at ha
      rcases List.mem_cons.mp ha with h | h
      · rw [h]; rfl
      · cases h
    · rintro hg ⟨hn, hs2, hc⟩
      refine ⟨hn, hs2, hc, ?_⟩
      intro s2 hs3
      have hb := hg.sfileOk cls
      rw [hq] at hb
      have : s2 = s := by
        have : (some s : Option Bytes) = some s2 := hs3
        exact (Option.some.injEq s s2 ▸ this).symm
      rw [this]
      exact hb
  | benign =>
    refine lookupCases_pre J cur cur methods cnt _ _ _ _
      (lookup_q5_cases J cur methods cnt htab) rfl rfl (List.Perm.refl _)
      (fun a ha => absurd ha (List.not_mem_nil a)) rfl rfl (by simp) ?_
    rintro _ ⟨hn, hs2, hc⟩
    refine ⟨hn, hs2, hc, ?_⟩
    intro s2 hs3
    rw [hsf] at hs3
    cases hs3
  | wrongPhase => exact lookup_phase_case J cur methods cnt _
  | fatal =>
    refine lookup_fatal_case J cur methods cnt _ ?_
    intro hg
    have h := hg.sfileOk cls
    rw [hq] at h
    exact h

theorem lookup_q3_cases (J : Jvmti) (cls : Nat) (cur : MethodData)
    (methods : List MethodData) (cnt : Int)
    (hcs : cur.class_signature = none) (hsf : cur.source_file = none)
    (htab : cur.line_number_table = none) :
    LookupCases J cur methods cnt
      (reqStr cur.method_name ∧ reqStr cur.method_signature)
      (lookup_q3 J cls cur methods cnt) := by
  rw [lookup_q3]
  cases hq : J.getClassSignature cls with
  | ok s =>
    refine lookupCases_pre J cur { cur with class_signature := some s } methods cnt
      _ _ _ _ (lookup_q4_cases J cls _ methods cnt hsf htab) rfl rfl ?_ ?_ rfl rfl
      (by simp) ?_
    · exact mdAllocs_set_csig cur s hcs
    · intro a ha
      simp only [evAllocs] at ha
      rcases List.mem_cons.mp ha with h | h
      · rw [h]; rfl
      · cases h
    · rintro hg ⟨hn, hs2⟩
      have hb := hg.csigOk cls
      rw [hq] at hb
      exact ⟨hn, hs2, ⟨s, rfl, hb⟩⟩
  | benign =>
    refine lookupCases_pre J cur cur methods cnt _ _ _ _
      (lookup_q4_cases J cls cur methods cnt hsf htab) rfl rfl (List.Perm.refl _)
      (fun a ha => absurd ha (List.not_mem_nil a)) rfl rfl (by simp) ?_
    intro hg _
    have hb := hg.csigOk cls
    rw [hq] at hb
    exact absurd hb (by simp)
  | wrongPhase => exact lookup_phase_case J cur methods cnt _
  | fatal =>
    refine lookup_fatal_case J cur methods cnt _ ?_
    intro hg
    have h := hg.csigOk cls
    rw [hq] at h
    exact h

theorem lookup_q2_cases (J : Jvmti) (cur : MethodData)
    (methods : List MethodData) (cnt : Int)
    (hcs : cur.class_signature = none) (hsf : cur.source_file = none)
    (htab : cur.line_number_table = none) :
    LookupCases J cur methods cnt
      (reqStr cur.method_name ∧ reqStr cur.method_signature)
      (lookup_q2 J cur methods cnt) := by
  rw [lookup_q2]
  cases hq : J.getMethodDeclaringClass cur.method with
  | ok cls =>
    exact lookupCases_pre J cur cur methods cnt _ _ _ _
      (lookup_q3_cases J cls cur methods cnt hcs hsf htab) rfl rfl (List.Perm.refl _)
      (fun a ha => absurd ha (List.not_mem_nil a)) rfl rfl (by simp) (fun _ h => h)
  | benign =>
    exact lookupCases_pre J cur cur methods cnt _ _ _ _
      (lookup_q3_cases J 0 cur methods cnt hcs hsf htab) rfl rfl (List.Perm.refl _)
      (fun a ha => absurd ha (List.not_mem_nil a)) rfl rfl (by simp) (fun _ h => h)
  | wrongPhase => exact lookup_phase_case J cur methods cnt _
  | fatal =>
    refine lookup_fatal_case J cur methods cnt _ ?_
    intro hg
    have h := hg.clsOk cur.method
    rw [hq] at h
    exact h

theorem lookup_q1_cases (J : Jvmti) (cur : MethodData)
    (methods : List MethodData) (cnt : Int)
    (hmn : cur.method_name = none) (hmsg : cur.method_signature = none)
    (hcs : cur.class_signature = none) (hsf : cur.source_file = none)
    (htab : cur.line_number_table = none) :
    LookupCases J cur methods cnt True (lookup_q1 J cur methods cnt) := by
  rw [lookup_q1]
  cases hq : J.getMethodName cur.method with
  | ok ns =>
    refine lookupCases_pre J cur
      { cur with method_name := some ns.1, method_signature := some ns.2 } methods cnt
      _ _ _ _ (lookup_q2_cases J _ methods cnt hcs hsf htab) rfl rfl ?_ ?_ rfl rfl
      (by simp) ?_
    · exact mdAllocs_set_name cur ns.1 ns.2 hmn hmsg
    · intro a ha
      simp only [evAllocs] at ha
      rcases List.mem_cons.mp ha with h | h
      · rw [h]; rfl
      · rcases List.mem_cons.mp h with h2 | h2
        · rw [h2]; rfl
        · cases h2
    · intro hg _
      have hb := hg.nameOk cur.method
      rw [hq] at hb
      exact ⟨⟨ns.1, rfl, hb.1⟩, ⟨ns.2, rfl, hb.2⟩⟩
  | benign =>
    refine lookupCases_pre J cur cur methods cnt _ _ _ _
      (lookup_q2_cases J cur methods cnt hcs hsf htab) rfl rfl (List.Perm.refl _)
      (fun a ha => absurd ha (List.not_mem_nil a)) rfl rfl (by simp) ?_
    intro hg _
    have hb := hg.nameOk cur.method
    rw [hq] at hb
    exact absurd hb (by simp)
  | wrongPhase => exact lookup_phase_case J cur methods cnt _
  | fatal =>
    refine lookup_fatal_case J cur methods cnt _ ?_
    intro hg
    have h := hg.nameOk cur.method
    rw [hq] at h
    exact h

/-- Classification of a full lookup_method call: a cache hit returns the
cached record with no effects at all; a miss either appends a completed
record, abandons the event (frees balancing allocations exactly), or
aborts on a fatal error (impossible under a GoodJ oracle). -/
theorem lookup_method_cases (J : Jvmti) (m : Nat) (methods : List MethodData)
    (cnt : Int) :
    (∃ md, findMethod m methods = some md ∧
       lookup_method J m methods cnt = ⟨some md, methods, cnt, ⟨[], false⟩⟩) ∨
    (findMethod m methods = none ∧
       LookupTop J m methods cnt (lookup_method J m methods cnt)) := by
  rcases hf : findMethod m methods with _ | md
  case some => exact Or.inl ⟨md, rfl, lookup_found J m methods cnt md hf⟩
  right
  refine ⟨rfl, ?_⟩
  rw [lookup_method, hf]
  have h1 := lookup_q1_cases J ⟨0, m, none, none, none, none, none⟩ methods cnt
    rfl rfl rfl rfl rfl
  set cur0 : MethodData := ⟨0, m, none, none, none, none, none⟩ with hc0
  rcases h1 with ⟨md2, h1, h2, h3, h4, h5, h6, h7, h8, h9, h10, h11, h12⟩ |
    ⟨h1, h2, h3, h4, h5, h6, h7, h8, h9⟩ | ⟨h1, h2, h3, h4, h5⟩
  · left
    simp only [LookupRes.pre, Tr.seq_pure]
    refine ⟨md2, h1, h2, h3, h4, h5, h6, ?_, ?_, ?_, ?_, ?_, fun hg => h12 hg trivial⟩
    · intro hx
      rcases List.mem_cons.mp hx with h | h
      · cases h
      · exact h7 h
    · show evWrites (Ev.alc (AllocId.record m) :: (lookup_q1 J cur0 methods cnt).tr.evs) = []
      simp [evWrites, h8]
    · show evFrees (Ev.alc (AllocId.record m) :: (lookup_q1 J cur0 methods cnt).tr.evs) = []
      simp [evFrees, h9]
    · show List.Perm
        (evAllocs (Ev.alc (AllocId.record m) :: (lookup_q1 J cur0 methods cnt).tr.evs))
        (mdAllocs md2)
      have hperm0 : List.Perm
          (evAllocs (lookup_q1 J cur0 methods cnt).tr.evs ++ [AllocId.record m])
          (mdAllocs md2) := h10
      have hA : evAllocs (Ev.alc (AllocId.record m) :: (lookup_q1 J cur0 methods cnt).tr.evs) =
          AllocId.record m :: evAllocs (lookup_q1 J cur0 methods cnt).tr.evs := by
        simp [evAllocs]
      rw [hA]
      exact (List.perm_append_singleton _ _).symm.trans hperm0
    · intro a ha
      simp only [evAllocs] at ha
      rcases List.mem_cons.mp ha with h | h
      · rw [h]; rfl
      · exact h11 a h
  · right; left
    simp only [LookupRes.pre, Tr.seq_pure]
    have hA : evAllocs (Ev.alc (AllocId.record m) :: (lookup_q1 J cur0 methods cnt).tr.evs) =
        AllocId.record m :: evAllocs (lookup_q1 J cur0 methods cnt).tr.evs := by
      simp [evAllocs]
    refine ⟨h1, h2, h3, h4, ?_, ?_, ?_, ?_, ?_⟩
    · intro hx
      rcases List.mem_cons.mp hx with h | h
      · cases h
      · exact h5 h
    · show evWrites (Ev.alc (AllocId.record m) :: (lookup_q1 J cur0 methods cnt).tr.evs) = []
      simp [evWrites, h6]
    · show List.Perm (evFrees (Ev.alc (AllocId.record m) :: (lookup_q1 J cur0 methods cnt).tr.evs))
        (evAllocs (Ev.alc (AllocId.record m) :: (lookup_q1 J cur0 methods cnt).tr.evs))
      have hfr : evFrees (Ev.alc (AllocId.record m) :: (lookup_q1 J cur0 methods cnt).tr.evs) =
          evFrees (lookup_q1 J cur0 methods cnt).tr.evs := by
        simp [evFrees]
      rw [hfr, hA]
      exact h7
    · intro a ha
      have ha2 : a ∈ AllocId.record m :: evAllocs (lookup_q1 J cur0 methods cnt).tr.evs := ha
      rcases List.mem_cons.mp ha2 with h | h
      · rw [h]; rfl
      · exact h8 a h
    · show (AllocId.record m :: evAllocs (lookup_q1 J cur0 methods cnt).tr.evs).Nodup
      obtain ⟨c, hcf⟩ := h9
      have hnodf : (evFrees (lookup_q1 J cur0 methods cnt).tr.evs).Nodup := by
        rw [hcf]; exact mdAllocs_nodup c
      have hperm2 : List.Perm
          (evFrees (lookup_q1 J cur0 methods cnt).tr.evs)
          (AllocId.record m :: evAllocs (lookup_q1 J cur0 methods cnt).tr.evs) := h7
      exact hperm2.nodup_iff.mp hnodf
  · right; right
    simp only [LookupRes.pre, Tr.seq, h1, evWrites_append, evFrees_append]
    refine ⟨rfl, h2, ?_, ?_, h5⟩
    · simp [evWrites, h3]
    · simp [evFrees, h4]

/-! ## The pre-lock resolution phase -/

theorem Tr.seq_evs (a b : Tr) (h : a.ab = false) :
    Tr.seq a b = ⟨a.evs ++ b.evs, b.ab⟩ := by
  rcases a with ⟨ae, aab⟩
  simp only at h
  subst h
  simp [Tr.seq]

theorem idsChain_append (mds : List MethodData) (x : MethodData)
    (h : mds.map (fun md => md.id) = (List.range mds.length).map (fun i : Nat => (i : Int)))
    (hx : x.id = (mds.length : Int)) :
    (mds ++ [x]).map (fun md => md.id) =
      (List.range (mds ++ [x]).length).map (fun i : Nat => (i : Int)) := by
  rw [List.map_append, h, List.length_append, List.length_singleton,
      List.range_succ, List.map_append]
  simp only [List.map_cons, List.map_nil, hx]

theorem new_id_eq (mds : List MethodData) (v : Int)
    (hv : v = (match mds with | [] => 0 | _ :: _ => lastId mds + 1))
    (hlast : mds ≠ [] → lastId mds = (mds.length : Int) - 1) :
    v = (mds.length : Int) := by
  cases hms : mds with
  | nil =>
    subst hms
    simpa using hv
  | cons y rest =>
    subst hms
    have hl := hlast (by simp)
    rw [hv, hl, List.length_cons]
    push_cast
    omega

theorem lastId_cond_append (mds : List MethodData) (x : MethodData)
    (hx : x.id = (mds.length : Int)) :
    lastId (mds ++ [x]) = ((mds ++ [x]).length : Int) - 1 := by
  rw [lastId_append, hx, List.length_append, List.length_singleton]
  push_cast
  omega

/-- Effect of one lookup_method call on a state satisfying the resolution
invariant. -/
theorem rinv_lookup (J : Jvmti) (m : Nat) (s : RState) (r : LookupRes)
    (hr : r = lookup_method J m s.methods s.methods_count)
    (hInv : ResolveInv J s) :
    (∀ md, r.res = some md →
       ResolveInv J ⟨r.methods, r.methods_count, Tr.seq s.tr r.tr, false⟩ ∧
       (findMethod m r.methods).isSome = true ∧
       (∀ m2, (findMethod m2 s.methods).isSome = true →
          (findMethod m2 r.methods).isSome = true)) ∧
    (r.res = none → r.tr.ab = false →
       AbandonOut ⟨r.methods, r.methods_count, Tr.seq s.tr r.tr, true⟩) ∧
    (r.res = none → r.tr.ab = true →
       (Tr.seq s.tr r.tr).ab = true ∧ evWrites (Tr.seq s.tr r.tr).evs = []) ∧
    (GoodJ J → r.tr.ab = false) := by
  obtain ⟨hab, htr, herr, hwr, hfr, hperm, hnd, hlen, hids, hlast, hwf⟩ := hInv
  have hnm : ∀ md2 ∈ s.methods, md2.method ∈ s.methods.map (fun md => md.method) := by
    intro md2 h2
    exact List.mem_map.mpr ⟨md2, h2, rfl⟩
  rcases lookup_method_cases J m s.methods s.methods_count with
    ⟨md, hfind, heq⟩ | ⟨hfind, htop⟩
  · subst hr
    rw [heq]
    refine ⟨?_, by simp, by simp, fun _ => rfl⟩
    intro md2 _
    rw [Tr.seq_nil_right]
    exact ⟨⟨rfl, htr, herr, hwr, hfr, hperm, hnd, hlen, hids, hlast, hwf⟩,
      by rw [hfind]; rfl, fun m2 h2 => h2⟩
  · subst hr
    have hnotin : m ∉ s.methods.map (fun md => md.method) := by
      intro hin
      obtain ⟨md2, hmem, hm2⟩ := List.mem_map.mp hin
      exact findMethod_none m s.methods hfind md2 hmem hm2
    rcases htop with ⟨md, t1, t2, t3, t4, t5, t6, t7, t8, t9, t10, t11, t12⟩ |
      ⟨t1, t2, t3, t4, t5, t6, t7, t8, t9⟩ | ⟨t1, t2, t3, t4, t5⟩
    · -- miss, record appended
      refine ⟨?_, ?_, ?_, fun _ => t6⟩
      · intro md2 hmd2
        have hseq := Tr.seq_evs s.tr (lookup_method J m s.methods s.methods_count).tr htr
        have hmdm : md.method = m := t2
        constructor
        · refine ⟨rfl, ?_, ?_, ?_, ?_, ?_, ?_, ?_, ?_, ?_, ?_⟩
          · simp [Tr.seq_ab, htr, t6]
          · rw [hseq]
            simp only [List.mem_append]
            rintro (hx | hx)
            · exact herr hx
            · exact t7 hx
          · rw [hseq]
            simp only
            rw [evWrites_append, hwr, t8]
            rfl
          · rw [hseq]
            simp only
            rw [evFrees_append, hfr, t9]
            rfl
          · rw [hseq]
            simp only [t4]
            rw [evAllocs_append, List.flatMap_append]
            refine List.Perm.append hperm ?_
            simpa using t10
          · simp only [t4, List.map_append, List.nodup_append]
            refine ⟨hnd, by simp, ?_⟩
            intro y hy hy2
            simp only [List.map_cons, List.map_nil, List.mem_singleton] at hy2
            rw [hy2, hmdm] at hy
            exact hnotin hy
          · simp only [t4, t5, List.length_append, List.length_singleton]
            push_cast
            omega
          · rw [t4]
            exact idsChain_append s.methods md hids (new_id_eq s.methods md.id t3 hlast)
          · intro _
            rw [t4]
            exact lastId_cond_append s.methods md (new_id_eq s.methods md.id t3 hlast)
          · intro hg md3 hmd3
            rw [t4] at hmd3
            rcases List.mem_append.mp hmd3 with hx | hx
            · exact hwf hg md3 hx
            · rw [List.mem_singleton] at hx
              rw [hx]
              exact t12 hg
        · constructor
          · rw [t4, findMethod_append_self m s.methods md hfind hmdm]
            rfl
          · intro m2 h2
            rw [t4]
            exact findMethod_isSome_mono m2 s.methods md h2
      · intro hnone
        rw [t1] at hnone
        cases hnone
      · intro hnone
        rw [t1] at hnone
        cases hnone
    · -- miss, abandoned on WRONG_PHASE
      refine ⟨?_, ?_, ?_, fun _ => t4⟩
      · intro md2 hmd2
        rw [t1] at hmd2
        cases hmd2
      · intro _ _
        have hseq := Tr.seq_evs s.tr (lookup_method J m s.methods s.methods_count).tr htr
        refine ⟨?_, ?_, ?_, ?_, ?_⟩
        · simp [Tr.seq_ab, htr, t4]
        · rw [hseq]
          simp only [List.mem_append]
          rintro (hx | hx)
          · exact herr hx
          · exact t5 hx
        · rw [hseq]
          simp only
          rw [evWrites_append, hwr, t6]
          rfl
        · rw [hseq]
          simp only [t2]
          rw [evFrees_append, evAllocs_append, hfr]
          rw [List.perm_iff_count]
          intro x
          have p1 := List.perm_iff_count.mp t7 x
          have p2 := List.perm_iff_count.mp hperm x
          simp only [List.count_append, List.count_nil, List.nil_append] at p1 p2 ⊢
          omega
        · rw [hseq]
          simp only
          rw [evAllocs_append]
          rw [List.nodup_append]
          refine ⟨hperm.nodup_iff.mpr (bind_mdAllocs_nodup s.methods hnd), t9, ?_⟩
          intro a haS haR
          have h1 : a ∈ s.methods.flatMap mdAllocs := (hperm.mem_iff).mp haS
          have h2 : AllocId.mh a ∈ s.methods.map (fun md => md.method) :=
            bind_mdAllocs_mh s.methods a h1
          rw [t8 a haR] at h2
          exact hnotin h2
      · intro _ habt
        rw [habt] at t4
        cases t4
    · -- miss, fatal abort
      refine ⟨?_, ?_, ?_, fun hg => absurd hg t5⟩
      · intro md2 hmd2
        rw [t2] at hmd2
        cases hmd2
      · intro _ hfalse
        rw [hfalse] at t1
        cases t1
      · intro _ _
        constructor
        · simp [Tr.seq_ab, htr, t1]
        · have hseq := Tr.seq_evs s.tr (lookup_method J m s.methods s.methods_count).tr htr
          rw [hseq]
          simp only
          rw [evWrites_append, hwr, t3]
          rfl

/-- Behaviour of the frame-resolution loop on an invariant state. -/
theorem resolveFrames_spec (J : Jvmti) (frames : List (Nat × Int)) :
    ∀ (s : RState), ResolveInv J s →
    evWrites (resolveFrames J frames s).tr.evs = [] ∧
    ((resolveFrames J frames s).aband = false →
       ResolveInv J (resolveFrames J frames s) ∧
       (∀ m2, (findMethod m2 s.methods).isSome = true →
          (findMethod m2 (resolveFrames J frames s).methods).isSome = true) ∧
       (∀ fr ∈ frames, (findMethod fr.1 (resolveFrames J frames s).methods).isSome = true)) ∧
    ((resolveFrames J frames s).aband = true →
       (resolveFrames J frames s).tr.ab = false → AbandonOut (resolveFrames J frames s)) ∧
    (GoodJ J → (resolveFrames J frames s).tr.ab = false) := by
  induction frames with
  | nil =>
    intro s hInv
    refine ⟨hInv.2.2.2.1, ?_, ?_, fun _ => hInv.2.1⟩
    · intro _
      exact ⟨hInv, fun m2 h2 => h2, by simp⟩
    · intro h
      rw [show (resolveFrames J [] s) = s from rfl, hInv.1] at h
      cases h
  | cons fr rest ih =>
    intro s hInv
    obtain ⟨m, bci⟩ := fr
    have hstep := rinv_lookup J m s (lookup_method J m s.methods s.methods_count)
      rfl hInv
    rcases hres : (lookup_method J m s.methods s.methods_count).res with _ | md
    · have heq : resolveFrames J ((m, bci) :: rest) s =
          ⟨(lookup_method J m s.methods s.methods_count).methods,
           (lookup_method J m s.methods s.methods_count).methods_count,
           Tr.seq s.tr (lookup_method J m s.methods s.methods_count).tr, true⟩ := by
        rw [resolveFrames]
        simp only [hres]
      rw [heq]
      cases habt : (lookup_method J m s.methods s.methods_count).tr.ab with
      | false =>
        have hA := hstep.2.1 hres habt
        refine ⟨hA.2.2.1, ?_, ?_, ?_⟩
        · intro h
          cases h
        · intro _ _
          exact hA
        · intro hg
          show (Tr.seq s.tr (lookup_method J m s.methods s.methods_count).tr).ab = false
          rw [Tr.seq_ab, hInv.2.1, habt]
          rfl
      | true =>
        have hB := hstep.2.2.1 hres habt
        refine ⟨hB.2, ?_, ?_, ?_⟩
        · intro h
          cases h
        · intro _ habs
          exact absurd (hB.1.symm.trans habs) (by simp)
        · intro hg
          exact absurd habt (by simp [hstep.2.2.2 hg])
    · have heq : resolveFrames J ((m, bci) :: rest) s =
          resolveFrames J rest
            ⟨(lookup_method J m s.methods s.methods_count).methods,
             (lookup_method J m s.methods s.methods_count).methods_count,
             Tr.seq s.tr (lookup_method J m s.methods s.methods_count).tr, false⟩ := by
        rw [resolveFrames]
        simp only [hres]
      rw [heq]
      obtain ⟨hInv1, hfound, hmono⟩ := hstep.1 md hres
      have IH := ih ⟨(lookup_method J m s.methods s.methods_count).methods,
        (lookup_method J m s.methods s.methods_count).methods_count,
        Tr.seq s.tr (lookup_method J m s.methods s.methods_count).tr, false⟩ hInv1
      refine ⟨IH.1, ?_, IH.2.2.1, IH.2.2.2⟩
      intro hnab
      obtain ⟨i1, i2, i3⟩ := IH.2.1 hnab
      refine ⟨i1, ?_, ?_⟩
      · intro m2 h2
        exact i2 m2 (hmono m2 h2)
      · intro fr2 hfr2
        rcases List.mem_cons.mp hfr2 with he | hr
        · rw [he]
          exact i2 m hfound
        · exact i3 fr2 hr

/-- Behaviour of the pc-entry resolution loop on an invariant state. -/
theorem resolvePcs_spec (J : Jvmti) (pcs : List PCStackInfo) :
    ∀ (s : RState), ResolveInv J s →
    evWrites (resolvePcs J pcs s).tr.evs = [] ∧
    ((resolvePcs J pcs s).aband = false →
       ResolveInv J (resolvePcs J pcs s) ∧
       (∀ m2, (findMethod m2 s.methods).isSome = true →
          (findMethod m2 (resolvePcs J pcs s).methods).isSome = true) ∧
       (∀ info ∈ pcs, ∀ fr ∈ info.frames,
          (findMethod fr.1 (resolvePcs J pcs s).methods).isSome = true)) ∧
    ((resolvePcs J pcs s).aband = true →
       (resolvePcs J pcs s).tr.ab = false → AbandonOut (resolvePcs J pcs s)) ∧
    (GoodJ J → (resolvePcs J pcs s).tr.ab = false) := by
  induction pcs with
  | nil =>
    intro s hInv
    refine ⟨hInv.2.2.2.1, ?_, ?_, fun _ => hInv.2.1⟩
    · intro _
      exact ⟨hInv, fun m2 h2 => h2, by simp⟩
    · intro h
      rw [show (resolvePcs J [] s) = s from rfl, hInv.1] at h
      cases h
  | cons info rest ih =>
    intro s hInv
    have hfr := resolveFrames_spec J info.frames s hInv
    rcases hs1 : (resolveFrames J info.frames s).aband with _ | _
    · have heq : resolvePcs J (info :: rest) s =
          resolvePcs J rest (resolveFrames J info.frames s) := by
        rw [resolvePcs, hs1]
        simp
      rw [heq]
      obtain ⟨f1, f2, f3⟩ := hfr.2.1 hs1
      have IH := ih (resolveFrames J info.frames s) f1
      refine ⟨IH.1, ?_, IH.2.2.1, IH.2.2.2⟩
      intro hnab
      obtain ⟨i1, i2, i3⟩ := IH.2.1 hnab
      refine ⟨i1, ?_, ?_⟩
      · intro m2 h2
        exact i2 m2 (f2 m2 h2)
      · intro info2 hinfo2 fr2 hfr2
        rcases List.mem_cons.mp hinfo2 with he | hr
        · subst he
          exact i2 fr2.1 (f3 fr2 hfr2)
        · exact i3 info2 hr fr2 hfr2
    · have heq : resolvePcs J (info :: rest) s = resolveFrames J info.frames s := by
        rw [resolvePcs, hs1]
        simp
      rw [heq]
      refine ⟨hfr.1, ?_, hfr.2.2.1, hfr.2.2.2⟩
      intro h
      rw [hs1] at h
      cases h

/-! ## The locked record-write phase -/

theorem writeFrames_hit (J : Jvmti) (frames : List (Nat × Int)) :
    ∀ (s : WState),
    (∀ fr ∈ frames, (findMethod fr.1 s.methods).isSome = true) →
    writeFrames J frames s =
      ⟨s.methods, s.methods_count, s.file,
       Tr.seq s.tr ⟨framesEvs s.methods frames, false⟩⟩ := by
  induction frames with
  | nil =>
    intro s _
    have h0 : Tr.seq s.tr ⟨framesEvs s.methods [], false⟩ = s.tr :=
      Tr.seq_nil_right s.tr
    rw [writeFrames, h0]
  | cons fr rest ih =>
    intro s hhit
    obtain ⟨m, bci⟩ := fr
    have hfind := hhit (m, bci) (List.mem_cons_self _ _)
    rcases hf : findMethod m s.methods with _ | md
    · rw [hf] at hfind
      cases hfind
    · have hlk := lookup_found J m s.methods s.methods_count md hf
      have heq : writeFrames J ((m, bci) :: rest) s =
          writeFrames J rest ⟨s.methods, s.methods_count, s.file,
            Tr.seq (Tr.seq (Tr.seq s.tr ⟨[], false⟩) (write_jint md.id))
              (write_jint bci)⟩ := by
        rw [writeFrames, hlk]
      have htr : Tr.seq (Tr.seq (Tr.seq (Tr.seq s.tr ⟨[], false⟩)
          (write_jint md.id)) (write_jint bci))
          ⟨framesEvs s.methods rest, false⟩ =
          Tr.seq s.tr ⟨framesEvs s.methods ((m, bci) :: rest), false⟩ := by
        rw [Tr.seq_nil_right, Tr.seq_assoc, Tr.seq_assoc]
        have h2 : Tr.seq (write_jint md.id)
            (Tr.seq (write_jint bci) ⟨framesEvs s.methods rest, false⟩) =
            ⟨framesEvs s.methods ((m, bci) :: rest), false⟩ := by
          rw [write_jint, write_jint, write_or_fail, write_or_fail, Tr.seq_pure,
            Tr.seq_pure]
          simp [framesEvs, idOf, hf]
        rw [h2]
      rw [heq, ih ⟨s.methods, s.methods_count, s.file,
        Tr.seq (Tr.seq (Tr.seq s.tr ⟨[], false⟩) (write_jint md.id))
          (write_jint bci)⟩ (fun fr2 h2 => hhit fr2 (List.mem_cons_of_mem _ h2))]
      show (⟨s.methods, s.methods_count, s.file,
        Tr.seq (Tr.seq (Tr.seq (Tr.seq s.tr ⟨[], false⟩) (write_jint md.id))
          (write_jint bci)) ⟨framesEvs s.methods rest, false⟩⟩ : WState) =
        ⟨s.methods, s.methods_count, s.file,
         Tr.seq s.tr ⟨framesEvs s.methods ((m, bci) :: rest), false⟩⟩
      rw [htr]

theorem writePcs_hit (ho : ByteOrder) (J : Jvmti) (pcs : List PCStackInfo) :
    ∀ (s : WState),
    (∀ info ∈ pcs, ∀ fr ∈ info.frames,
       (findMethod fr.1 s.methods).isSome = true) →
    writePcs ho J pcs s =
      ⟨s.methods, s.methods_count, s.file,
       Tr.seq s.tr ⟨pcsEvs ho s.methods pcs, false⟩⟩ := by
  induction pcs with
  | nil =>
    intro s _
    have h0 : Tr.seq s.tr ⟨pcsEvs ho s.methods [], false⟩ = s.tr :=
      Tr.seq_nil_right s.tr
    rw [writePcs, h0]
  | cons info rest ih =>
    intro s hhit
    have hfrm := writeFrames_hit J info.frames
      ⟨s.methods, s.methods_count, s.file,
       Tr.seq (Tr.seq s.tr (write_unsigned_jlong ho info.pc))
         (write_jint ((info.frames.length : Nat) : Int))⟩
      (fun fr2 h2 => hhit info (List.mem_cons_self _ _) fr2 h2)
    have heq : writePcs ho J (info :: rest) s =
        writePcs ho J rest (writeFrames J info.frames
          ⟨s.methods, s.methods_count, s.file,
           Tr.seq (Tr.seq s.tr (write_unsigned_jlong ho info.pc))
             (write_jint ((info.frames.length : Nat) : Int))⟩) := by
      rw [writePcs]
    have hassemble : Tr.seq (Tr.seq (Tr.seq (Tr.seq s.tr (write_unsigned_jlong ho info.pc))
        (write_jint ((info.frames.length : Nat) : Int)))
        ⟨framesEvs s.methods info.frames, false⟩)
        ⟨pcsEvs ho s.methods rest, false⟩ =
        Tr.seq s.tr ⟨pcsEvs ho s.methods (info :: rest), false⟩ := by
      rw [wulong_eq, write_jint, write_or_fail]
      rw [Tr.seq_assoc, Tr.seq_assoc, Tr.seq_assoc]
      rw [Tr.seq_pure, Tr.seq_pure, Tr.seq_pure]
      simp [pcsEvs, List.append_assoc]
    rw [heq, hfrm, ih ⟨s.methods, s.methods_count, s.file,
      Tr.seq (Tr.seq (Tr.seq s.tr (write_unsigned_jlong ho info.pc))
        (write_jint ((info.frames.length : Nat) : Int)))
        ⟨framesEvs s.methods info.frames, false⟩⟩
      (fun info2 h2 fr2 hf2 => hhit info2 (List.mem_cons_of_mem _ h2) fr2 hf2)]
    show (⟨s.methods, s.methods_count, s.file,
      Tr.seq (Tr.seq (Tr.seq (Tr.seq s.tr (write_unsigned_jlong ho info.pc))
        (write_jint ((info.frames.length : Nat) : Int)))
        ⟨framesEvs s.methods info.frames, false⟩)
        ⟨pcsEvs ho s.methods rest, false⟩⟩ : WState) =
      ⟨s.methods, s.methods_count, s.file,
       Tr.seq s.tr ⟨pcsEvs ho s.methods (info :: rest), false⟩⟩
    rw [hassemble]

theorem write_line_table_eq (ho : ByteOrder) (entries : List (Int × Int)) :
    write_method_entry.write_line_table ho entries = ⟨lineEvs ho entries, false⟩ := by
  induction entries with
  | nil => rfl
  | cons e rest ih =>
    obtain ⟨loc, ln⟩ := e
    rw [write_method_entry.write_line_table, ih, wulong_eq, write_jint,
      write_or_fail, Tr.seq_pure, Tr.seq_pure]
    simp [lineEvs, List.append_assoc]

theorem write_method_entry_wf (ho : ByteOrder) (md : MethodData)
    (hwf : wfMethod md) :
    write_method_entry ho md = ⟨methodEntryEvs ho md, false⟩ := by
  obtain ⟨⟨mn, hmn, hmnl⟩, ⟨ms, hms, hmsl⟩, ⟨cs, hcs, hcsl⟩, hsf⟩ := hwf
  rw [write_method_entry, hcs, hmn, hms,
    write_string_wf cs hcsl, write_string_wf mn hmnl, write_string_wf ms hmsl,
    write_line_table_eq]
  rcases hsrc : md.source_file with _ | sf
  · simp only [write_string_or_null, write_jint, write_or_fail, Tr.seq_pure]
    simp [methodEntryEvs, hcs, hmn, hms, hsrc, List.append_assoc]
  · rw [write_string_or_null, write_string_wf sf (hsf sf hsrc)]
    simp only [write_jint, write_or_fail, Tr.seq_pure]
    simp [methodEntryEvs, hcs, hmn, hms, hsrc, List.append_assoc]

theorem write_methods_wf (ho : ByteOrder) (mds : List MethodData)
    (hwf : ∀ md ∈ mds, wfMethod md) :
    write_methods ho mds = ⟨methodsEvs ho mds, false⟩ := by
  induction mds with
  | nil => rfl
  | cons md rest ih =>
    rw [write_methods, write_method_entry_wf ho md (hwf md (List.mem_cons_self _ _)),
      ih (fun md2 h2 => hwf md2 (List.mem_cons_of_mem _ h2)), Tr.seq_pure]
    simp [methodsEvs]

/-- Full characterization of the locked write phase when the sink is open,
every cached record is serializable, and every frame's jmethodID is
already cached: the cache is untouched and the trace is exactly the CMLT
record events. -/
theorem wmle_spec (ho : ByteOrder) (J : Jvmti) (ts : Int × Int) (addr : Int)
    (code : Bytes) (cnt : Int) (methods : List MethodData)
    (ir : Option InlineRecord) (h : Nat)
    (hwf : ∀ md ∈ methods, wfMethod md)
    (hhit : ∀ ir2, ir = some ir2 → ∀ info ∈ ir2.pcinfo, ∀ fr ∈ info.frames,
      (findMethod fr.1 methods).isSome = true) :
    write_method_load_event ho J ts addr code cnt methods ir (some h) =
      ⟨methods, cnt, some h, ⟨cmltEvs ho ts addr code cnt methods ir, false⟩⟩ := by
  have hm := write_methods_wf ho methods hwf
  cases ir with
  | none =>
    rw [write_method_load_event]
    rw [write_timestamp, wulong_eq ho ts.1, wulong_eq ho ts.2, wulong_eq ho addr, hm]
    simp only [write_jint, write_or_fail, Tr.seq_pure]
    simp [cmltEvs, List.append_assoc]
  | some ir2 =>
    have hpcs := writePcs_hit ho J ir2.pcinfo
      ⟨methods, cnt, some h,
       Tr.seq (Tr.seq (Tr.seq (Tr.seq ⟨[Ev.lock], false⟩
         (Tr.seq (Tr.seq (Tr.seq (Tr.seq (write_jint CompiledMethodLoadTag)
           (write_timestamp ho ts)) (write_unsigned_jlong ho addr))
           (write_jint ((code.length : Nat) : Int))) (write_or_fail code)))
         (Tr.seq (Tr.seq (write_jint MethodsTag) (write_jint cnt))
           (write_methods ho methods)))
         (write_jint DebugInfoTag))
         (write_jint ((ir2.pcinfo.length : Nat) : Int))⟩
      (fun info h2 fr hf2 => hhit ir2 rfl info h2 fr hf2)
    rw [write_method_load_event]
    rw [hpcs]
    rw [write_timestamp, wulong_eq ho ts.1, wulong_eq ho ts.2, wulong_eq ho addr, hm]
    simp only [write_jint, write_or_fail, Tr.seq_pure]
    simp [cmltEvs, List.append_assoc]

/-! ## The locked phase issues no runtime queries -/

theorem seq_q0 (a b : Tr) (ha : evQueries a.evs = 0) (hb : evQueries b.evs = 0) :
    evQueries (Tr.seq a b).evs = 0 := by
  rw [Tr.seq]
  split
  · exact ha
  · simp only
    rw [evQueries_append, ha, hb]

theorem seq_w0 (a b : Tr) (ha : evWrites a.evs = []) (hb : evWrites b.evs = []) :
    evWrites (Tr.seq a b).evs = [] := by
  rw [Tr.seq]
  split
  · exact ha
  · simp only
    rw [evWrites_append, ha, hb]
    rfl

theorem wulong_q0 (ho : ByteOrder) (v : Int) :
    evQueries (write_unsigned_jlong ho v).evs = 0 := by
  cases ho <;> rfl

theorem write_string_q0 (o : Option Bytes) :
    evQueries (write_string o).evs = 0 := by
  rcases o with _ | s
  · rfl
  · rw [write_string_some]
    split
    · rfl
    · rcases s with _ | ⟨b, t⟩
      · rfl
      · simp [strEvs, evQueries]

theorem write_string_or_null_q0 (o : Option Bytes) :
    evQueries (write_string_or_null o).evs = 0 := by
  rcases o with _ | s
  · rfl
  · exact write_string_q0 (some s)

theorem write_timestamp_q0 (ho : ByteOrder) (ts : Int × Int) :
    evQueries (write_timestamp ho ts).evs = 0 :=
  seq_q0 _ _ (wulong_q0 ho ts.1) (wulong_q0 ho ts.2)

theorem write_line_table_q0 (ho : ByteOrder) (entries : List (Int × Int)) :
    evQueries (write_method_entry.write_line_table ho entries).evs = 0 := by
  induction entries with
  | nil => rfl
  | cons e rest ih =>
    obtain ⟨loc, ln⟩ := e
    rw [write_method_entry.write_line_table]
    exact seq_q0 _ _ (seq_q0 _ _ (wulong_q0 ho loc) rfl) ih

theorem write_method_entry_q0 (ho : ByteOrder) (md : MethodData) :
    evQueries (write_method_entry ho md).evs = 0 := by
  rw [write_method_entry]
  exact seq_q0 _ _
    (seq_q0 _ _ (seq_q0 _ _ (seq_q0 _ _ (write_string_q0 _) (write_string_q0 _))
      (write_string_q0 _)) (write_string_or_null_q0 _))
    (seq_q0 _ _ rfl (write_line_table_q0 ho md.lntList))

theorem write_methods_q0 (ho : ByteOrder) (mds : List MethodData) :
    evQueries (write_methods ho mds).evs = 0 := by
  induction mds with
  | nil => rfl
  | cons md rest ih =>
    rw [write_methods]
    exact seq_q0 _ _ (write_method_entry_q0 ho md) ih

theorem framesEvs_q0 (methods : List MethodData) (frames : List (Nat × Int)) :
    evQueries (framesEvs methods frames) = 0 := by
  induction frames with
  | nil => rfl
  | cons fr rest ih =>
    obtain ⟨m, bci⟩ := fr
    rw [framesEvs]
    rw [show ([Ev.wr (beBytes32 (jpat (idOf m methods))),
      Ev.wr (beBytes32 (jpat bci))] ++ framesEvs methods rest) =
      Ev.wr (beBytes32 (jpat (idOf m methods))) ::
      (Ev.wr (beBytes32 (jpat bci)) :: framesEvs methods rest) from rfl]
    rw [evQueries, evQueries, ih]

theorem pcsEvs_q0 (ho : ByteOrder) (methods : List MethodData)
    (pcs : List PCStackInfo) :
    evQueries (pcsEvs ho methods pcs) = 0 := by
  induction pcs with
  | nil => rfl
  | cons info rest ih =>
    rw [pcsEvs, evQueries_append, evQueries_append, evQueries_append, ih,
      framesEvs_q0]
    have h1 : evQueries (jlongEvs ho info.pc) = 0 := by
      rw [show jlongEvs ho info.pc = (write_unsigned_jlong ho info.pc).evs from rfl]
      exact wulong_q0 ho info.pc
    rw [h1]
    rfl

/-- The locked write phase performs no JVMTI queries and leaves the cache
untouched provided every frame method of the inline record is already
cached (which does not require the records to be serializable). -/
theorem wmle_queries (ho : ByteOrder) (J : Jvmti) (ts : Int × Int) (addr : Int)
    (code : Bytes) (cnt : Int) (methods : List MethodData)
    (ir : Option InlineRecord) (file : Option Nat)
    (hhit : ∀ ir2, ir = some ir2 → ∀ info ∈ ir2.pcinfo, ∀ fr ∈ info.frames,
      (findMethod fr.1 methods).isSome = true) :
    evQueries (write_method_load_event ho J ts addr code cnt methods ir file).tr.evs = 0 ∧
    (write_method_load_event ho J ts addr code cnt methods ir file).methods = methods ∧
    (write_method_load_event ho J ts addr code cnt methods ir file).methods_count = cnt ∧
    (write_method_load_event ho J ts addr code cnt methods ir file).file = file := by
  cases file with
  | none => exact ⟨rfl, rfl, rfl, rfl⟩
  | some h =>
    have hbase : evQueries (Tr.seq (Tr.seq (Tr.seq ⟨[Ev.lock], false⟩
        (Tr.seq (Tr.seq (Tr.seq (Tr.seq (write_jint CompiledMethodLoadTag)
          (write_timestamp ho ts)) (write_unsigned_jlong ho addr))
          (write_jint ((code.length : Nat) : Int))) (write_or_fail code)))
        (Tr.seq (Tr.seq (write_jint MethodsTag) (write_jint cnt))
          (write_methods ho methods)))
        (write_jint DebugInfoTag)).evs = 0 := by
      refine seq_q0 _ _ (seq_q0 _ _ (seq_q0 _ _ rfl ?_) ?_) rfl
      · exact seq_q0 _ _ (seq_q0 _ _ (seq_q0 _ _ (seq_q0 _ _ rfl
          (write_timestamp_q0 ho ts)) (wulong_q0 ho addr)) rfl) rfl
      · exact seq_q0 _ _ (seq_q0 _ _ rfl rfl) (write_methods_q0 ho methods)
    cases ir with
    | none =>
      rw [write_method_load_event]
      refine ⟨?_, rfl, rfl, rfl⟩
      exact seq_q0 _ _ (seq_q0 _ _ (seq_q0 _ _ hbase rfl) rfl) rfl
    | some ir2 =>
      have hpcs := writePcs_hit ho J ir2.pcinfo
        ⟨methods, cnt, some h,
         Tr.seq (Tr.seq (Tr.seq (Tr.seq ⟨[Ev.lock], false⟩
           (Tr.seq (Tr.seq (Tr.seq (Tr.seq (write_jint CompiledMethodLoadTag)
             (write_timestamp ho ts)) (write_unsigned_jlong ho addr))
             (write_jint ((code.length : Nat) : Int))) (write_or_fail code)))
           (Tr.seq (Tr.seq (write_jint MethodsTag) (write_jint cnt))
             (write_methods ho methods)))
           (write_jint DebugInfoTag))
           (write_jint ((ir2.pcinfo.length : Nat) : Int))⟩
        (fun info h2 fr hf2 => hhit ir2 rfl info h2 fr hf2)
      rw [write_method_load_event, hpcs]
      refine ⟨?_, rfl, rfl, rfl⟩
      refine seq_q0 _ _ (seq_q0 _ _ ?_ rfl) rfl
      refine seq_q0 _ _ (seq_q0 _ _ hbase rfl) ?_
      show evQueries (pcsEvs ho methods ir2.pcinfo) = 0
      exact pcsEvs_q0 ho methods ir2.pcinfo

/-! ## Assembly of compiledMethodLoad -/

theorem resolveInv_empty (J : Jvmti) :
    ResolveInv J ⟨[], 0, ⟨[], false⟩, false⟩ :=
  ⟨rfl, rfl, List.not_mem_nil Ev.err, rfl, rfl, List.Perm.refl _,
   List.nodup_nil, rfl, rfl, fun hne => absurd rfl hne,
   fun _ md hmd => absurd hmd (List.not_mem_nil md)⟩

theorem id_bounds (mds : List MethodData) (md : MethodData)
    (hch : mds.map (fun md => md.id) =
      (List.range mds.length).map (fun i : Nat => (i : Int)))
    (hmem : md ∈ mds) : 0 ≤ md.id ∧ md.id < (mds.length : Int) := by
  have h1 : md.id ∈ mds.map (fun md => md.id) := List.mem_map.mpr ⟨md, hmem, rfl⟩
  rw [hch] at h1
  obtain ⟨i, hi, hid⟩ := List.mem_map.mp h1
  rw [List.mem_range] at hi
  constructor
  · rw [← hid]
    exact Int.ofNat_nonneg i
  · rw [← hid]
    exact_mod_cast hi

theorem lookup_writes_nil (J : Jvmti) (m : Nat) (mds : List MethodData) (cnt : Int) :
    evWrites (lookup_method J m mds cnt).tr.evs = [] := by
  rcases lookup_method_cases J m mds cnt with ⟨md, _, heq⟩ | ⟨_, htop⟩
  · rw [heq]
    rfl
  · rcases htop with ⟨md, _, _, _, _, _, _, _, hw, _⟩ | ⟨_, _, _, _, _, hw, _⟩ |
      ⟨_, _, hw, _⟩ <;> exact hw

/-- Master lemma for a compiled-method-load event that runs to completion
under a GoodJ oracle: the cache satisfies the id invariants and the locked
phase wrote exactly the CMLT record described by cmltEvs. -/
theorem cml_master (ho : ByteOrder) (J : Jvmti) (method : Nat) (addr : Int)
    (code : Bytes) (ci : List CompileRecord) (ts : Int × Int) (h : Nat)
    (hg : GoodJ J)
    (hnab : (compiledMethodLoad ho J method addr code ci ts (some h)).aband = false) :
    ((compiledMethodLoad ho J method addr code ci ts (some h)).methods.length : Int) =
      (compiledMethodLoad ho J method addr code ci ts (some h)).methods_count ∧
    (compiledMethodLoad ho J method addr code ci ts (some h)).methods.map
        (fun md => md.id) =
      (List.range (compiledMethodLoad ho J method addr code ci ts
        (some h)).methods.length).map (fun i : Nat => (i : Int)) ∧
    (compiledMethodLoad ho J method addr code ci ts (some h)).lockedTr =
      ⟨cmltEvs ho ts addr code
        (compiledMethodLoad ho J method addr code ci ts (some h)).methods_count
        (compiledMethodLoad ho J method addr code ci ts (some h)).methods
        (findFirstInline ci), false⟩ ∧
    (∀ ir, findFirstInline ci = some ir → ∀ info ∈ ir.pcinfo, ∀ fr ∈ info.frames,
       (findMethod fr.1 (compiledMethodLoad ho J method addr code ci ts
         (some h)).methods).isSome = true) := by
  have hstep := rinv_lookup J method ⟨[], 0, ⟨[], false⟩, false⟩
    (lookup_method J method [] 0) rfl (resolveInv_empty J)
  rcases hres : (lookup_method J method [] 0).res with _ | md
  · -- the primary lookup failed: the event is abandoned, contradicting hnab
    have heq : compiledMethodLoad ho J method addr code ci ts (some h) =
        ⟨Tr.seq (lookup_method J method [] 0).tr
           (cleanupMethods (lookup_method J method [] 0).methods),
         ⟨[], false⟩, (lookup_method J method [] 0).methods,
         (lookup_method J method [] 0).methods,
         (lookup_method J method [] 0).methods_count, true, some h⟩ := by
      rw [compiledMethodLoad]
      simp only [hres]
    rw [heq] at hnab
    cases hnab
  · obtain ⟨hInv0, hfound0, _⟩ := hstep.1 md hres
    have hInv0x : ResolveInv J ⟨(lookup_method J method [] 0).methods,
        (lookup_method J method [] 0).methods_count,
        (lookup_method J method [] 0).tr, false⟩ := hInv0
    cases hfi : findFirstInline ci with
    | none =>
      have hw := wmle_spec ho J ts addr code
        (lookup_method J method [] 0).methods_count
        (lookup_method J method [] 0).methods none h
        (hInv0x.2.2.2.2.2.2.2.2.2.2 hg)
        (fun ir2 hir2 => by cases hir2)
      have heq : compiledMethodLoad ho J method addr code ci ts (some h) =
          ⟨Tr.seq (Tr.seq (lookup_method J method [] 0).tr
             (write_method_load_event ho J ts addr code
               (lookup_method J method [] 0).methods_count
               (lookup_method J method [] 0).methods none (some h)).tr)
             (cleanupMethods (write_method_load_event ho J ts addr code
               (lookup_method J method [] 0).methods_count
               (lookup_method J method [] 0).methods none (some h)).methods),
           (write_method_load_event ho J ts addr code
             (lookup_method J method [] 0).methods_count
             (lookup_method J method [] 0).methods none (some h)).tr,
           (lookup_method J method [] 0).methods,
           (write_method_load_event ho J ts addr code
             (lookup_method J method [] 0).methods_count
             (lookup_method J method [] 0).methods none (some h)).methods,
           (write_method_load_event ho J ts addr code
             (lookup_method J method [] 0).methods_count
             (lookup_method J method [] 0).methods none (some h)).methods_count,
           false, (write_method_load_event ho J ts addr code
             (lookup_method J method [] 0).methods_count
             (lookup_method J method [] 0).methods none (some h)).file⟩ := by
        rw [compiledMethodLoad]
        simp only [hres, hfi]
        rfl
      rw [heq, hw]
      refine ⟨hInv0x.2.2.2.2.2.2.2.1, hInv0x.2.2.2.2.2.2.2.2.1, rfl, ?_⟩
      intro ir hir
      cases hir
    | some ir =>
      have hpc := resolvePcs_spec J ir.pcinfo
        ⟨(lookup_method J method [] 0).methods,
         (lookup_method J method [] 0).methods_count,
         (lookup_method J method [] 0).tr, false⟩ hInv0x
      cases hsab : (resolvePcs J ir.pcinfo
          ⟨(lookup_method J method [] 0).methods,
           (lookup_method J method [] 0).methods_count,
           (lookup_method J method [] 0).tr, false⟩).aband with
      | true =>
        have heq : (compiledMethodLoad ho J method addr code ci ts (some h)).aband =
            true := by
          rw [compiledMethodLoad]
          simp only [hres, hfi, hsab]
          rfl
        rw [heq] at hnab
        cases hnab
      | false =>
        obtain ⟨p1, p2, p3⟩ := hpc.2.1 hsab
        have hw := wmle_spec ho J ts addr code
          (resolvePcs J ir.pcinfo
            ⟨(lookup_method J method [] 0).methods,
             (lookup_method J method [] 0).methods_count,
             (lookup_method J method [] 0).tr, false⟩).methods_count
          (resolvePcs J ir.pcinfo
            ⟨(lookup_method J method [] 0).methods,
             (lookup_method J method [] 0).methods_count,
             (lookup_method J method [] 0).tr, false⟩).methods
          (some ir) h
          (p1.2.2.2.2.2.2.2.2.2.2 hg)
          (fun ir2 hir2 => by
            rw [Option.some.injEq] at hir2
            subst hir2
            exact p3)
        have heq : compiledMethodLoad ho J method addr code ci ts (some h) =
            ⟨Tr.seq (Tr.seq (resolvePcs J ir.pcinfo
               ⟨(lookup_method J method [] 0).methods,
                (lookup_method J method [] 0).methods_count,
                (lookup_method J method [] 0).tr, false⟩).tr
               (write_method_load_event ho J ts addr code
                 (resolvePcs J ir.pcinfo
                   ⟨(lookup_method J method [] 0).methods,
                    (lookup_method J method [] 0).methods_count,
                    (lookup_method J method [] 0).tr, false⟩).methods_count
                 (resolvePcs J ir.pcinfo
                   ⟨(lookup_method J method [] 0).methods,
                    (lookup_method J method [] 0).methods_count,
                    (lookup_method J method [] 0).tr, false⟩).methods
                 (some ir) (some h)).tr)
               (cleanupMethods (write_method_load_event ho J ts addr code
                 (resolvePcs J ir.pcinfo
                   ⟨(lookup_method J method [] 0).methods,
                    (lookup_method J method [] 0).methods_count,
                    (lookup_method J method [] 0).tr, false⟩).methods_count
                 (resolvePcs J ir.pcinfo
                   ⟨(lookup_method J method [] 0).methods,
                    (lookup_method J method [] 0).methods_count,
                    (lookup_method J method [] 0).tr, false⟩).methods
                 (some ir) (some h)).methods),
             (write_method_load_event ho J ts addr code
               (resolvePcs J ir.pcinfo
                 ⟨(lookup_method J method [] 0).methods,
                  (lookup_method J method [] 0).methods_count,
                  (lookup_method J method [] 0).tr, false⟩).methods_count
               (resolvePcs J ir.pcinfo
                 ⟨(lookup_method J method [] 0).methods,
                  (lookup_method J method [] 0).methods_count,
                  (lookup_method J method [] 0).tr, false⟩).methods
               (some ir) (some h)).tr,
             (resolvePcs J ir.pcinfo
               ⟨(lookup_method J method [] 0).methods,
                (lookup_method J method [] 0).methods_count,
                (lookup_method J method [] 0).tr, false⟩).methods,
             (write_method_load_event ho J ts addr code
               (resolvePcs J ir.pcinfo
                 ⟨(lookup_method J method [] 0).methods,
                  (lookup_method J method [] 0).methods_count,
                  (lookup_method J method [] 0).tr, false⟩).methods_count
               (resolvePcs J ir.pcinfo
                 ⟨(lookup_method J method [] 0).methods,
                  (lookup_method J method [] 0).methods_count,
                  (lookup_method J method [] 0).tr, false⟩).methods
               (some ir) (some h)).methods,
             (write_method_load_event ho J ts addr code
               (resolvePcs J ir.pcinfo
                 ⟨(lookup_method J method [] 0).methods,
                  (lookup_method J method [] 0).methods_count,
                  (lookup_method J method [] 0).tr, false⟩).methods_count
               (resolvePcs J ir.pcinfo
                 ⟨(lookup_method J method [] 0).methods,
                  (lookup_method J method [] 0).methods_count,
                  (lookup_method J method [] 0).tr, false⟩).methods
               (some ir) (some h)).methods_count,
             false, (write_method_load_event ho J ts addr code
               (resolvePcs J ir.pcinfo
                 ⟨(lookup_method J method [] 0).methods,
                  (lookup_method J method [] 0).methods_count,
                  (lookup_method J method [] 0).tr, false⟩).methods_count
               (resolvePcs J ir.pcinfo
                 ⟨(lookup_method J method [] 0).methods,
                  (lookup_method J method [] 0).methods_count,
                  (lookup_method J method [] 0).tr, false⟩).methods
               (some ir) (some h)).file⟩ := by
          rw [compiledMethodLoad]
          simp only [hres, hfi, hsab]
          rfl
        rw [heq, hw]
        refine ⟨p1.2.2.2.2.2.2.2.1, p1.2.2.2.2.2.2.2.2.1, rfl, ?_⟩
        intro ir2 hir2
        rw [Option.some.injEq] at hir2
        subst hir2
        exact p3

/-! ## Cleanup-loop facts and reduction of compiledMethodLoad -/

theorem cleanup_writes (mds : List MethodData) :
    evWrites (cleanupMethods mds).evs = [] := by
  rw [cleanupMethods_eq]
  exact evWrites_map_fre _

theorem cleanup_err (mds : List MethodData) :
    Ev.err ∉ (cleanupMethods mds).evs := by
  rw [cleanupMethods_eq]
  exact err_not_mem_map_fre _

theorem cleanup_frees (mds : List MethodData) :
    evFrees (cleanupMethods mds).evs = mds.flatMap mdAllocs := by
  rw [cleanupMethods_eq]
  exact evFrees_map_fre _

theorem cleanup_allocs (mds : List MethodData) :
    evAllocs (cleanupMethods mds).evs = [] := by
  rw [cleanupMethods_eq]
  exact evAllocs_map_fre _

theorem cleanup_queries (mds : List MethodData) :
    evQueries (cleanupMethods mds).evs = 0 := by
  rw [cleanupMethods_eq]
  exact evQueries_map_fre _

theorem cleanup_ab (mds : List MethodData) :
    (cleanupMethods mds).ab = false := by
  rw [cleanupMethods_eq]

theorem cml_red_none (ho : ByteOrder) (J : Jvmti) (method : Nat) (addr : Int)
    (code : Bytes) (ci : List CompileRecord) (ts : Int × Int)
    (file : Option Nat)
    (hres : (lookup_method J method [] 0).res = none) :
    compiledMethodLoad ho J method addr code ci ts file =
      ⟨Tr.seq (lookup_method J method [] 0).tr
         (cleanupMethods (lookup_method J method [] 0).methods),
       ⟨[], false⟩, (lookup_method J method [] 0).methods,
       (lookup_method J method [] 0).methods,
       (lookup_method J method [] 0).methods_count, true, file⟩ := by
  rw [compiledMethodLoad]
  simp only [hres]

theorem cml_red_abandon (ho : ByteOrder) (J : Jvmti) (method : Nat)
    (addr : Int) (code : Bytes) (ci : List CompileRecord) (ts : Int × Int)
    (file : Option Nat) (md : MethodData) (ir : InlineRecord)
    (hres : (lookup_method J method [] 0).res = some md)
    (hfi : findFirstInline ci = some ir)
    (hsab : (resolvePcs J ir.pcinfo (rstate0 J method)).aband = true) :
    compiledMethodLoad ho J method addr code ci ts file =
      ⟨Tr.seq (resolvePcs J ir.pcinfo (rstate0 J method)).tr
         (cleanupMethods (resolvePcs J ir.pcinfo (rstate0 J method)).methods),
       ⟨[], false⟩,
       (resolvePcs J ir.pcinfo (rstate0 J method)).methods,
       (resolvePcs J ir.pcinfo (rstate0 J method)).methods,
       (resolvePcs J ir.pcinfo (rstate0 J method)).methods_count, true,
       file⟩ := by
  have hsab2 : (resolvePcs J ir.pcinfo
      ⟨(lookup_method J method [] 0).methods,
       (lookup_method J method [] 0).methods_count,
       (lookup_method J method [] 0).tr, false⟩).aband = true := hsab
  rw [compiledMethodLoad]
  simp only [hres, hfi, hsab2]
  rfl

theorem cml_red_write_none (ho : ByteOrder) (J : Jvmti) (method : Nat)
    (addr : Int) (code : Bytes) (ci : List CompileRecord) (ts : Int × Int)
    (file : Option Nat) (md : MethodData)
    (hres : (lookup_method J method [] 0).res = some md)
    (hfi : findFirstInline ci = none) :
    compiledMethodLoad ho J method addr code ci ts file =
      ⟨Tr.seq (Tr.seq (rstate0 J method).tr
         (write_method_load_event ho J ts addr code
           (rstate0 J method).methods_count (rstate0 J method).methods
           none file).tr)
         (cleanupMethods (write_method_load_event ho J ts addr code
           (rstate0 J method).methods_count (rstate0 J method).methods
           none file).methods),
       (write_method_load_event ho J ts addr code
         (rstate0 J method).methods_count (rstate0 J method).methods
         none file).tr,
       (rstate0 J method).methods,
       (write_method_load_event ho J ts addr code
         (rstate0 J method).methods_count (rstate0 J method).methods
         none file).methods,
       (write_method_load_event ho J ts addr code
         (rstate0 J method).methods_count (rstate0 J method).methods
         none file).methods_count,
       false,
       (write_method_load_event ho J ts addr code
         (rstate0 J method).methods_count (rstate0 J method).methods
         none file).file⟩ := by
  rw [compiledMethodLoad]
  simp only [hres, hfi]
  rfl

theorem cml_red_write_some (ho : ByteOrder) (J : Jvmti) (method : Nat)
    (addr : Int) (code : Bytes) (ci : List CompileRecord) (ts : Int × Int)
    (file : Option Nat) (md : MethodData) (ir : InlineRecord)
    (hres : (lookup_method J method [] 0).res = some md)
    (hfi : findFirstInline ci = some ir)
    (hsab : (resolvePcs J ir.pcinfo (rstate0 J method)).aband = false) :
    compiledMethodLoad ho J method addr code ci ts file =
      ⟨Tr.seq (Tr.seq (resolvePcs J ir.pcinfo (rstate0 J method)).tr
         (write_method_load_event ho J ts addr code
           (resolvePcs J ir.pcinfo (rstate0 J method)).methods_count
           (resolvePcs J ir.pcinfo (rstate0 J method)).methods
           (some ir) file).tr)
         (cleanupMethods (write_method_load_event ho J ts addr code
           (resolvePcs J ir.pcinfo (rstate0 J method)).methods_count
           (resolvePcs J ir.pcinfo (rstate0 J method)).methods
           (some ir) file).methods),
       (write_method_load_event ho J ts addr code
         (resolvePcs J ir.pcinfo (rstate0 J method)).methods_count
         (resolvePcs J ir.pcinfo (rstate0 J method)).methods
         (some ir) file).tr,
       (resolvePcs J ir.pcinfo (rstate0 J method)).methods,
       (write_method_load_event ho J ts addr code
         (resolvePcs J ir.pcinfo (rstate0 J method)).methods_count
         (resolvePcs J ir.pcinfo (rstate0 J method)).methods
         (some ir) file).methods,
       (write_method_load_event ho J ts addr code
         (resolvePcs J ir.pcinfo (rstate0 J method)).methods_count
         (resolvePcs J ir.pcinfo (rstate0 J method)).methods
         (some ir) file).methods_count,
       false,
       (write_method_load_event ho J ts addr code
         (resolvePcs J ir.pcinfo (rstate0 J method)).methods_count
         (resolvePcs J ir.pcinfo (rstate0 J method)).methods
         (some ir) file).file⟩ := by
  have hsab2 : (resolvePcs J ir.pcinfo
      ⟨(lookup_method J method [] 0).methods,
       (lookup_method J method [] 0).methods_count,
       (lookup_method J method [] 0).tr, false⟩).aband = false := hsab
  rw [compiledMethodLoad]
  simp only [hres, hfi, hsab2]
  rfl

theorem rinv_rstate0 (J : Jvmti) (method : Nat) (md : MethodData)
    (hres : (lookup_method J method [] 0).res = some md) :
    ResolveInv J (rstate0 J method) := by
  have hstep := rinv_lookup J method ⟨[], 0, ⟨[], false⟩, false⟩
    (lookup_method J method [] 0) rfl (resolveInv_empty J)
  exact (hstep.1 md hres).1

/-! ## C4: NULL output file makes every handler a lock-protected no-op -/

/-- C4: with a NULL output_file each handler still takes the agent lock,
re-checks the file pointer, and leaves without writing anything: the
write_method_load_event, compiledMethodUnload and dynamicCodeGenerated
traces are exactly lock-then-unlock, and a whole compiledMethodLoad event
writes no bytes and leaves the file reference NULL. -/
theorem c4_null_file_noop (ho : ByteOrder) (J : Jvmti) (ts : Int × Int)
    (addr : Int) (code : Bytes) (cnt : Int) (mds : List MethodData)
    (ir : Option InlineRecord) (name : Option Bytes) (method : Nat)
    (ci : List CompileRecord) :
    write_method_load_event ho J ts addr code cnt mds ir none =
      ⟨mds, cnt, none, ⟨[.lock, .unlock], false⟩⟩ ∧
    compiledMethodUnload ho addr ts none = (⟨[.lock, .unlock], false⟩, none) ∧
    dynamicCodeGenerated ho name addr code ts none =
      (⟨[.lock, .unlock], false⟩, none) ∧
    evWrites (compiledMethodLoad ho J method addr code ci ts none).tr.evs = [] ∧
    (compiledMethodLoad ho J method addr code ci ts none).file = none := by
  have hmain : evWrites (compiledMethodLoad ho J method addr code ci ts
      none).tr.evs = [] ∧
      (compiledMethodLoad ho J method addr code ci ts none).file = none := by
    rcases hres : (lookup_method J method [] 0).res with _ | md
    · rw [cml_red_none ho J method addr code ci ts none hres]
      exact ⟨seq_w0 _ _ (lookup_writes_nil J method [] 0) (cleanup_writes _),
        rfl⟩
    · cases hfi : findFirstInline ci with
      | none =>
        rw [cml_red_write_none ho J method addr code ci ts none md hres hfi]
        exact ⟨seq_w0 _ _ (seq_w0 _ _ (lookup_writes_nil J method [] 0) rfl)
          (cleanup_writes _), rfl⟩
      | some ir2 =>
        have hpc := resolvePcs_spec J ir2.pcinfo (rstate0 J method)
          (rinv_rstate0 J method md hres)
        cases hsab : (resolvePcs J ir2.pcinfo (rstate0 J method)).aband with
        | true =>
          rw [cml_red_abandon ho J method addr code ci ts none md ir2 hres
            hfi hsab]
          exact ⟨seq_w0 _ _ hpc.1 (cleanup_writes _), rfl⟩
        | false =>
          rw [cml_red_write_some ho J method addr code ci ts none md ir2 hres
            hfi hsab]
          exact ⟨seq_w0 _ _ (seq_w0 _ _ hpc.1 rfl) (cleanup_writes _), rfl⟩
  exact ⟨rfl, rfl, rfl, hmain.1, hmain.2⟩

/-! ## C10: only the first inline-info record of the chain is used -/

theorem findFirstInline_from (xs : List CompileRecord) (r : InlineRecord)
    (zs : List CompileRecord)
    (hxs : ∀ x ∈ xs, x = CompileRecord.other) :
    findFirstInline (xs ++ CompileRecord.inlineInfo r :: zs) = some r := by
  induction xs with
  | nil => rfl
  | cons x rest ih =>
    have hx : x = CompileRecord.other := hxs x (List.mem_cons_self x rest)
    subst hx
    exact ih (fun y hy => hxs y (List.mem_cons_of_mem _ hy))

theorem cml_congr (ho : ByteOrder) (J : Jvmti) (m : Nat) (addr : Int)
    (code : Bytes) (ci1 ci2 : List CompileRecord) (ts : Int × Int)
    (file : Option Nat)
    (hf : findFirstInline ci1 = findFirstInline ci2) :
    compiledMethodLoad ho J m addr code ci1 ts file =
      compiledMethodLoad ho J m addr code ci2 ts file := by
  rw [compiledMethodLoad, compiledMethodLoad, hf]

/-- C10: the chain scan stops at the first JVMTI_CMLR_INLINE_INFO record,
so when the records before the first inline record are all of other kinds,
that record is the one found, and any further records after it (inline or
not) do not change the outcome of the whole compiledMethodLoad event. -/
theorem c10_first_inline_only (ho : ByteOrder) (J : Jvmti) (m : Nat)
    (addr : Int) (code : Bytes) (ts : Int × Int) (file : Option Nat)
    (xs ys : List CompileRecord) (r : InlineRecord)
    (hxs : ∀ x ∈ xs, x = CompileRecord.other) :
    findFirstInline (xs ++ CompileRecord.inlineInfo r :: ys) = some r ∧
    compiledMethodLoad ho J m addr code
        (xs ++ CompileRecord.inlineInfo r :: ys) ts file =
      compiledMethodLoad ho J m addr code
        (xs ++ [CompileRecord.inlineInfo r]) ts file := by
  have h1 := findFirstInline_from xs r ys hxs
  have h2 := findFirstInline_from xs r [] hxs
  exact ⟨h1, cml_congr ho J m addr code _ _ ts file (h1.trans h2.symm)⟩

/-- Witness for C10 at a concrete chain: one other-kind record, the inline
record, and a second (ignored) inline record after it. -/
theorem c10_witness :
    (∀ x ∈ [CompileRecord.other], x = CompileRecord.other) ∧
    (findFirstInline ([CompileRecord.other] ++
        CompileRecord.inlineInfo ⟨[⟨9, [(1, 5)]⟩]⟩ ::
        [CompileRecord.inlineInfo ⟨[]⟩]) = some ⟨[⟨9, [(1, 5)]⟩]⟩ ∧
     compiledMethodLoad .littleEndian J0 1 4096 [0, 1]
        ([CompileRecord.other] ++
          CompileRecord.inlineInfo ⟨[⟨9, [(1, 5)]⟩]⟩ ::
          [CompileRecord.inlineInfo ⟨[]⟩]) (7, 9) (some 0) =
      compiledMethodLoad .littleEndian J0 1 4096 [0, 1]
        ([CompileRecord.other] ++
          [CompileRecord.inlineInfo ⟨[⟨9, [(1, 5)]⟩]⟩]) (7, 9) (some 0)) :=
  ⟨by decide,
   c10_first_inline_only .littleEndian J0 1 4096 [0, 1] (7, 9) (some 0)
     [CompileRecord.other] [CompileRecord.inlineInfo ⟨[]⟩]
     ⟨[⟨9, [(1, 5)]⟩]⟩ (by decide)⟩

/-! ## C3: no metadata query while the writer lock is held -/

/-- C3: in every execution of compiledMethodLoad — any oracle, any inputs,
any output-file state — the locked record-write phase issues no metadata
query to the host runtime, and leaves the event-local cache exactly as the
pre-lock resolution phase built it: every lookup_method call made under the
lock hits the cache. -/
theorem c3_no_query_under_lock (ho : ByteOrder) (J : Jvmti) (method : Nat)
    (addr : Int) (code : Bytes) (ci : List CompileRecord) (ts : Int × Int)
    (file : Option Nat) :
    evQueries (compiledMethodLoad ho J method addr code ci ts
      file).lockedTr.evs = 0 ∧
    (compiledMethodLoad ho J method addr code ci ts file).methods =
      (compiledMethodLoad ho J method addr code ci ts file).resolved := by
  rcases hres : (lookup_method J method [] 0).res with _ | md
  · rw [cml_red_none ho J method addr code ci ts file hres]
    exact ⟨rfl, rfl⟩
  · cases hfi : findFirstInline ci with
    | none =>
      have hq := wmle_queries ho J ts addr code (rstate0 J method).methods_count
        (rstate0 J method).methods none file (fun ir2 hir2 => by cases hir2)
      rw [cml_red_write_none ho J method addr code ci ts file md hres hfi]
      exact ⟨hq.1, hq.2.1⟩
    | some ir =>
      have hpc := resolvePcs_spec J ir.pcinfo (rstate0 J method)
        (rinv_rstate0 J method md hres)
      cases hsab : (resolvePcs J ir.pcinfo (rstate0 J method)).aband with
      | true =>
        rw [cml_red_abandon ho J method addr code ci ts file md ir hres hfi
          hsab]
        exact ⟨rfl, rfl⟩
      | false =>
        obtain ⟨p1, p2, p3⟩ := hpc.2.1 hsab
        have hq := wmle_queries ho J ts addr code
          (resolvePcs J ir.pcinfo (rstate0 J method)).methods_count
          (resolvePcs J ir.pcinfo (rstate0 J method)).methods (some ir) file
          (fun ir2 hir2 => by
            rw [Option.some.injEq] at hir2
            subst hir2
            exact p3)
        rw [cml_red_write_some ho J method addr code ci ts file md ir hres
          hfi hsab]
        exact ⟨hq.1, hq.2.1⟩

/-! ## The concrete oracles satisfy GoodJ -/

theorem goodJ0 : GoodJ J0 := by
  refine ⟨fun m => ?_, fun m => trivial, fun c => ?_, fun c => ?_,
    fun m => trivial⟩
  · exact ⟨by decide, by decide⟩
  · show ([76] : Bytes).length ≤ INT_MAX
    decide
  · show ([70] : Bytes).length ≤ INT_MAX
    decide

theorem goodJ1 : GoodJ J1 := by
  refine ⟨fun m => ?_, fun m => trivial, fun c => ?_, fun c => ?_,
    fun m => trivial⟩
  · by_cases hm : m = 2
    · subst hm
      exact trivial
    · have hname : J1.getMethodName m = QR.ok ([97], [98]) := by
        show (if m = 2 then QR.wrongPhase else QR.ok ([97], [98])) = _
        rw [if_neg hm]
      rw [hname]
      exact ⟨by decide, by decide⟩
  · show ([76] : Bytes).length ≤ INT_MAX
    decide
  · show ([70] : Bytes).length ≤ INT_MAX
    decide

/-! ## C1: method-id consistency of one CMLT record -/

/-- C1: for a compiled-method-load event that completes without the
shutdown-abandon under an oracle that never reports a fatal error, the
locked phase wrote exactly one CMLT record whose written method count
equals the number of MTHT entries, whose entries carry ids 0,1,2,... in
list (first-seen) order, and in which every method handle referenced by a
DEBI frame resolves in the written table to an entry whose id is a valid
index: 0 ≤ id < method count. -/
theorem c1_method_id_consistency (ho : ByteOrder) (J : Jvmti) (method : Nat)
    (addr : Int) (code : Bytes) (ci : List CompileRecord) (ts : Int × Int)
    (h : Nat) (hg : GoodJ J)
    (hnab : (compiledMethodLoad ho J method addr code ci ts
      (some h)).aband = false) :
    ((compiledMethodLoad ho J method addr code ci ts
        (some h)).methods.length : Int) =
      (compiledMethodLoad ho J method addr code ci ts (some h)).methods_count ∧
    (compiledMethodLoad ho J method addr code ci ts (some h)).methods.map
        (fun md => md.id) =
      (List.range (compiledMethodLoad ho J method addr code ci ts
        (some h)).methods.length).map (fun i : Nat => (i : Int)) ∧
    (compiledMethodLoad ho J method addr code ci ts (some h)).lockedTr =
      ⟨cmltEvs ho ts addr code
        (compiledMethodLoad ho J method addr code ci ts (some h)).methods_count
        (compiledMethodLoad ho J method addr code ci ts (some h)).methods
        (findFirstInline ci), false⟩ ∧
    (∀ ir, findFirstInline ci = some ir → ∀ info ∈ ir.pcinfo,
       ∀ fr ∈ info.frames,
       ∃ md, findMethod fr.1 (compiledMethodLoad ho J method addr code ci ts
           (some h)).methods = some md ∧ 0 ≤ md.id ∧
         md.id < (compiledMethodLoad ho J method addr code ci ts
           (some h)).methods_count) := by
  obtain ⟨m1, m2, m3, m4⟩ := cml_master ho J method addr code ci ts h hg hnab
  refine ⟨m1, m2, m3, ?_⟩
  intro ir hir info hinfo fr hfr
  have hs := m4 ir hir info hinfo fr hfr
  rcases hfm : findMethod fr.1 (compiledMethodLoad ho J method addr code ci
      ts (some h)).methods with _ | md
  · rw [hfm] at hs
    simp at hs
  · obtain ⟨hmem, _⟩ := findMethod_some _ _ _ hfm
    have hb := id_bounds _ md m2 hmem
    refine ⟨md, rfl, hb.1, ?_⟩
    rw [← m1]
    exact hb.2

/-- Witness for C1: the always-answering oracle, primary method 1, and the
concrete inline chain ci0 whose frames reference methods 1 and 2. -/
theorem c1_witness :
    GoodJ J0 ∧
    (compiledMethodLoad .littleEndian J0 1 4096 [0, 1] ci0 (7, 9)
      (some 0)).aband = false ∧
    (((compiledMethodLoad .littleEndian J0 1 4096 [0, 1] ci0 (7, 9)
        (some 0)).methods.length : Int) =
      (compiledMethodLoad .littleEndian J0 1 4096 [0, 1] ci0 (7, 9)
        (some 0)).methods_count ∧
     (compiledMethodLoad .littleEndian J0 1 4096 [0, 1] ci0 (7, 9)
        (some 0)).methods.map (fun md => md.id) =
      (List.range (compiledMethodLoad .littleEndian J0 1 4096 [0, 1] ci0
        (7, 9) (some 0)).methods.length).map (fun i : Nat => (i : Int)) ∧
     (compiledMethodLoad .littleEndian J0 1 4096 [0, 1] ci0 (7, 9)
        (some 0)).lockedTr =
      ⟨cmltEvs .littleEndian (7, 9) 4096 [0, 1]
        (compiledMethodLoad .littleEndian J0 1 4096 [0, 1] ci0 (7, 9)
          (some 0)).methods_count
        (compiledMethodLoad .littleEndian J0 1 4096 [0, 1] ci0 (7, 9)
          (some 0)).methods
        (findFirstInline ci0), false⟩ ∧
     (∀ ir, findFirstInline ci0 = some ir → ∀ info ∈ ir.pcinfo,
        ∀ fr ∈ info.frames,
        ∃ md, findMethod fr.1 (compiledMethodLoad .littleEndian J0 1 4096
            [0, 1] ci0 (7, 9) (some 0)).methods = some md ∧ 0 ≤ md.id ∧
          md.id < (compiledMethodLoad .littleEndian J0 1 4096 [0, 1] ci0
            (7, 9) (some 0)).methods_count)) :=
  ⟨goodJ0, rfl,
   c1_method_id_consistency .littleEndian J0 1 4096 [0, 1] ci0 (7, 9) 0
     goodJ0 rfl⟩

/-! ## C2: shutdown-abandon atomicity -/

/-- C2: when a compiled-method-load event is abandoned because a metadata
query reported the shutdown condition (and the process did not abort on a
fatal error), the whole event writes no bytes to the sink, surfaces no
diagnostic, and frees exactly the allocations it made: the multiset of
freed allocations equals the multiset of allocations, each allocation
being freed exactly once. -/
theorem c2_shutdown_abandon (ho : ByteOrder) (J : Jvmti) (method : Nat)
    (addr : Int) (code : Bytes) (ci : List CompileRecord) (ts : Int × Int)
    (file : Option Nat)
    (hab : (compiledMethodLoad ho J method addr code ci ts file).aband =
      true)
    (hok : (compiledMethodLoad ho J method addr code ci ts file).tr.ab =
      false) :
    evWrites (compiledMethodLoad ho J method addr code ci ts
      file).tr.evs = [] ∧
    Ev.err ∉ (compiledMethodLoad ho J method addr code ci ts file).tr.evs ∧
    List.Perm
      (evFrees (compiledMethodLoad ho J method addr code ci ts file).tr.evs)
      (evAllocs (compiledMethodLoad ho J method addr code ci ts
        file).tr.evs) ∧
    (evAllocs (compiledMethodLoad ho J method addr code ci ts
      file).tr.evs).Nodup := by
  rcases hres : (lookup_method J method [] 0).res with _ | md
  · have heq := cml_red_none ho J method addr code ci ts file hres
    rw [heq] at hok ⊢
    rcases lookup_method_cases J method [] 0 with ⟨md, hf, _⟩ | ⟨_, htop⟩
    · simp [findMethod] at hf
    · rcases htop with ⟨md, hr, _⟩ |
        ⟨_, hmeq, _, hab2, herr, hw, hperm, _, hnd⟩ | ⟨habt, _, _, _, _⟩
      · rw [hres] at hr
        cases hr
      · simp only [hmeq, cleanupMethods, Tr.seq_evs _ _ hab2,
          List.append_nil]
        exact ⟨hw, herr, hperm, hnd⟩
      · rw [Tr.seq_ab, habt] at hok
        simp at hok
  · cases hfi : findFirstInline ci with
    | none =>
      have heq := cml_red_write_none ho J method addr code ci ts file md
        hres hfi
      rw [heq] at hab
      cases hab
    | some ir =>
      have hpc := resolvePcs_spec J ir.pcinfo (rstate0 J method)
        (rinv_rstate0 J method md hres)
      cases hsab : (resolvePcs J ir.pcinfo (rstate0 J method)).aband with
      | false =>
        have heq := cml_red_write_some ho J method addr code ci ts file md
          ir hres hfi hsab
        rw [heq] at hab
        cases hab
      | true =>
        have heq := cml_red_abandon ho J method addr code ci ts file md ir
          hres hfi hsab
        rw [heq] at hok ⊢
        have hsab_ab : (resolvePcs J ir.pcinfo (rstate0 J method)).tr.ab =
            false := by
          rw [Tr.seq_ab] at hok
          exact (Bool.or_eq_false_iff.mp hok).1
        obtain ⟨a1, a2, a3, a4, a5⟩ := hpc.2.2.1 hsab hsab_ab
        simp only [Tr.seq_evs _ _ a1, cleanupMethods_eq]
        refine ⟨?_, ?_, ?_, ?_⟩
        · rw [evWrites_append, a3, evWrites_map_fre]
          rfl
        · simp only [List.mem_append]
          rintro (hc | hc)
          · exact a2 hc
          · exact err_not_mem_map_fre _ hc
        · rw [evFrees_append, evAllocs_append, evFrees_map_fre,
            evAllocs_map_fre]
          simpa using a4
        · rw [evAllocs_append, evAllocs_map_fre]
          simpa using a5

/-- Witness for C2: the oracle J1 reports shutdown for jmethodID 2, which
appears as an inline frame of ci0; the event is abandoned with a clean
trace. -/
theorem c2_witness :
    (compiledMethodLoad .littleEndian J1 1 4096 [0, 1] ci0 (7, 9)
      (some 0)).aband = true ∧
    (compiledMethodLoad .littleEndian J1 1 4096 [0, 1] ci0 (7, 9)
      (some 0)).tr.ab = false ∧
    (evWrites (compiledMethodLoad .littleEndian J1 1 4096 [0, 1] ci0 (7, 9)
       (some 0)).tr.evs = [] ∧
     Ev.err ∉ (compiledMethodLoad .littleEndian J1 1 4096 [0, 1] ci0 (7, 9)
       (some 0)).tr.evs ∧
     List.Perm
       (evFrees (compiledMethodLoad .littleEndian J1 1 4096 [0, 1] ci0
         (7, 9) (some 0)).tr.evs)
       (evAllocs (compiledMethodLoad .littleEndian J1 1 4096 [0, 1] ci0
         (7, 9) (some 0)).tr.evs) ∧
     (evAllocs (compiledMethodLoad .littleEndian J1 1 4096 [0, 1] ci0
       (7, 9) (some 0)).tr.evs).Nodup) :=
  ⟨rfl, rfl,
   c2_shutdown_abandon .littleEndian J1 1 4096 [0, 1] ci0 (7, 9) (some 0)
     rfl rfl⟩

end JvmtiAsm
